import Mathlib

/-!
# Verification of the ms-graph-mcp resilience and validation layer

A shallow embedding, in Lean 4, of the core of the `ms-graph-mcp` repository:
the token-bucket rate limiter (`src/graph/rate-limiter.ts`), the circuit
breaker (`src/graph/circuit-breaker.ts`), the retry wrapper of the secure
Graph client (`src/graph/client.ts`), the input validators
(`src/security/validators.ts`) and the output sanitizers
(`src/security/sanitizers.ts`).

Modelling conventions:
* JavaScript numbers are modelled as exact rationals (`ℚ`) where fractional
  values arise (token counts, backoff delays) and as integers (`ℤ`) for
  millisecond timestamps.  `Math.ceil` / `Math.floor` become `Int.ceil` /
  `Int.floor` on `ℚ`.
* `Date.now()` becomes an explicit timestamp argument threaded through each
  operation.
* Thrown exceptions become `Except` results.  The repository's error classes
  (`ValidationError`, `RateLimitError`, `AuthenticationError`,
  `GraphAPIError`, `TokenStorageError` from `src/security/errors.ts`) become
  the constructors of the `JsError` sum type; a plain JavaScript `Error` (or
  any other named error such as `FetchError`) is `JsError.other name message`.
* Strings are processed as their underlying `List Char`; the JavaScript
  regular expressions of `validators.ts` are compiled by hand into
  deterministic character-level scanners (each derivation is justified in the
  comments at the scanner: in every pattern used by the source, greedy
  matching with backtracking collapses to a deterministic maximal-munch scan).
-/

/-- The error taxonomy of `src/security/errors.ts`, as a closed sum.
`other name message` stands for any further `Error` object with the given
`name` (the generic `Error`, node's `FetchError`, …).  `rateLimit` carries
the `retryAfterMs` field of `RateLimitError`. -/
inductive JsError where
  | validation (message : String)
  | rateLimit (message : String) (retryAfterMs : ℤ)
  | authentication (message : String)
  | graphAPI (message : String)
  | tokenStorage (message : String)
  | other (name message : String)
  deriving DecidableEq, Repr

-- Decidable equality for `Except`, used to evaluate the embedding on
-- concrete inputs.
deriving instance DecidableEq for Except

namespace StrScan

/-- Substring test used to model JavaScript's `String.prototype.includes`:
`startsWithL p s` holds when `p` is an initial segment of `s`. -/
def startsWithL : List Char → List Char → Bool
  | [], _ => true
  | _ :: _, [] => false
  | p :: ps, c :: cs => p = c && startsWithL ps cs

/-- `containsSubstrL p s`: `p` occurs contiguously somewhere in `s`
(JavaScript `s.includes(p)`). -/
def containsSubstrL (p : List Char) : List Char → Bool
  | [] => startsWithL p []
  | c :: cs => startsWithL p (c :: cs) || containsSubstrL p cs

/-- String-level wrapper for `containsSubstrL`. -/
def containsSubstr (p s : String) : Bool :=
  containsSubstrL p.data s.data

end StrScan


/-! ## Circuit breaker (`src/graph/circuit-breaker.ts`) -/

/-- `CircuitState` enum of `circuit-breaker.ts`. -/
inductive CircuitState where
  | CLOSED
  | OPEN
  | HALF_OPEN
  deriving DecidableEq, Repr

/-- The mutable fields and configuration of class `CircuitBreaker`.
Timestamps (`nextAttemptTime`, the `timeout` configuration) are integer
milliseconds. -/
structure CircuitBreaker where
  state : CircuitState
  failureCount : ℕ
  successCount : ℕ
  nextAttemptTime : ℤ
  failureThreshold : ℕ
  successThreshold : ℕ
  timeout : ℤ
  deriving DecidableEq, Repr

namespace CircuitBreaker

/-- The constructor of `CircuitBreaker`: initial state `CLOSED`, counters 0,
`nextAttemptTime = 0`. -/
def mk' (failureThreshold successThreshold : ℕ) (timeout : ℤ) : CircuitBreaker :=
  { state := .CLOSED
    failureCount := 0
    successCount := 0
    nextAttemptTime := 0
    failureThreshold := failureThreshold
    successThreshold := successThreshold
    timeout := timeout }

/-- `Math.ceil(a / b)` for integer `a` and positive integer `b`
(in the source the division is floating-point; on integer inputs the result
is exact). -/
def ceilDiv (a b : ℤ) : ℤ := -((-a).fdiv b)

/-- Private method `onSuccess` of `CircuitBreaker`. -/
def onSuccess (cb : CircuitBreaker) : CircuitBreaker :=
  let cb := { cb with failureCount := 0 }
  if cb.state = .HALF_OPEN then
    let cb := { cb with successCount := cb.successCount + 1 }
    if cb.successThreshold ≤ cb.successCount then
      { cb with state := .CLOSED, successCount := 0 }
    else cb
  else cb

/-- Private method `onFailure` of `CircuitBreaker`; `now` is `Date.now()` at
the moment the failure is recorded. -/
def onFailure (cb : CircuitBreaker) (now : ℤ) : CircuitBreaker :=
  let cb := { cb with failureCount := cb.failureCount + 1, successCount := 0 }
  if cb.failureThreshold ≤ cb.failureCount then
    { cb with state := .OPEN, nextAttemptTime := now + cb.timeout }
  else cb

/-- The message of the `GraphAPIError` thrown while the circuit is open. -/
def openMessage (cb : CircuitBreaker) (now : ℤ) : String :=
  "Service temporarily unavailable. Circuit breaker is open. Retry in " ++
    toString (ceilDiv (cb.nextAttemptTime - now) 1000) ++ "s."

/-- Result of one `execute` call: the value or error surfaced to the caller,
the breaker state afterwards, and whether the wrapped `fn` was invoked. -/
structure ExecResult (α : Type) where
  result : Except JsError α
  breaker : CircuitBreaker
  invoked : Bool
  deriving Repr

/-- Method `execute<T>(fn)` of `CircuitBreaker`.  `nowCall` models
`Date.now()` at entry, `nowResolve` models `Date.now()` when `fn` settles
(the two may differ because `fn` is awaited in between).  The behaviour of
the wrapped `fn` is supplied as its settled `outcome`; when the breaker
rejects fast the outcome is ignored and `invoked = false`. -/
def execute {α : Type} (cb : CircuitBreaker) (nowCall nowResolve : ℤ)
    (outcome : Except JsError α) : ExecResult α :=
  if cb.state = .OPEN ∧ nowCall < cb.nextAttemptTime then
    { result := .error (.graphAPI (openMessage cb nowCall))
      breaker := cb
      invoked := false }
  else
    -- when stored state is OPEN and the timeout elapsed, transition to
    -- HALF_OPEN (resetting successCount) before invoking fn
    let cb := if cb.state = .OPEN then
        { cb with state := .HALF_OPEN, successCount := 0 }
      else cb
    match outcome with
    | .ok v => { result := .ok v, breaker := cb.onSuccess, invoked := true }
    | .error e =>
      { result := .error e, breaker := cb.onFailure nowResolve, invoked := true }

/-- Method `getState()` of `CircuitBreaker`: reports `HALF_OPEN` when the
stored tag is `OPEN` but the timeout has elapsed. -/
def getState (cb : CircuitBreaker) (now : ℤ) : CircuitState :=
  if cb.state = .OPEN ∧ cb.nextAttemptTime ≤ now then .HALF_OPEN
  else cb.state

/-- Method `reset()` of `CircuitBreaker`. -/
def reset (cb : CircuitBreaker) : CircuitBreaker :=
  { cb with
    state := .CLOSED
    failureCount := 0
    successCount := 0
    nextAttemptTime := 0 }

/-- Method `getFailureCount()` of `CircuitBreaker`. -/
def getFailureCount (cb : CircuitBreaker) : ℕ := cb.failureCount

end CircuitBreaker

/-! ## Rate limiter (`src/graph/rate-limiter.ts`) -/

/-- `RateLimiterConfig` of `rate-limiter.ts`. -/
structure RateLimiterConfig where
  maxRequestsPerMinute : ℚ
  burstAllowance : Option ℚ
  deriving Repr

/-- The fields of class `RateLimiter`.  Token counts are exact rationals
(the source uses floating-point numbers); `lastRefillTime` is an integer
millisecond timestamp. -/
structure RateLimiter where
  tokens : ℚ
  refillRate : ℚ
  lastRefillTime : ℤ
  burstAllowance : ℚ
  deriving Repr

namespace RateLimiter

/-- The constructor of `RateLimiter`: starts with the full burst allowance
(defaulting to `maxRequestsPerMinute`); `refillRate` is tokens per
millisecond. -/
def mk' (config : RateLimiterConfig) (now : ℤ) : RateLimiter :=
  let burst := config.burstAllowance.getD config.maxRequestsPerMinute
  { tokens := burst
    refillRate := config.maxRequestsPerMinute / 60000
    lastRefillTime := now
    burstAllowance := burst }

/-- Private method `refillTokens` of `RateLimiter`. -/
def refillTokens (rl : RateLimiter) (now : ℤ) : RateLimiter :=
  let elapsedMs : ℚ := (now : ℚ) - (rl.lastRefillTime : ℚ)
  let tokensToAdd := elapsedMs * rl.refillRate
  if 0 < tokensToAdd then
    { rl with
      tokens := min rl.burstAllowance (rl.tokens + tokensToAdd)
      lastRefillTime := now }
  else rl

/-- The message of the `RateLimitError` thrown by `checkLimit`. -/
def limitMessage (waitTimeMs : ℤ) : String :=
  "Rate limit exceeded. Please wait " ++
    toString ⌈(waitTimeMs : ℚ) / 1000⌉ ++ " seconds."

/-- Method `checkLimit()` of `RateLimiter`: lazily refills, then either
fails with a `RateLimitError` (consuming nothing) or consumes one token. -/
def checkLimit (rl : RateLimiter) (now : ℤ) : Except JsError Unit × RateLimiter :=
  let rl := rl.refillTokens now
  if rl.tokens < 1 then
    let waitTimeMs : ℤ := ⌈(1 - rl.tokens) / rl.refillRate⌉
    (.error (.rateLimit (limitMessage waitTimeMs) waitTimeMs), rl)
  else
    (.ok (), { rl with tokens := rl.tokens - 1 })

/-- Method `getAvailableTokens()` of `RateLimiter` (refill-then-report). -/
def getAvailableTokens (rl : RateLimiter) (now : ℤ) : ℚ × RateLimiter :=
  let rl := rl.refillTokens now
  (rl.tokens, rl)

/-- Method `reset()` of `RateLimiter`. -/
def reset (rl : RateLimiter) (now : ℤ) : RateLimiter :=
  { rl with tokens := rl.burstAllowance, lastRefillTime := now }

/-- One observable operation on the limiter, tagged with the `Date.now()`
value at which it runs (this models arbitrary elapsed time between calls). -/
inductive Op where
  | check
  | getTokens
  | reset
  deriving DecidableEq, Repr

/-- Apply one timestamped operation. -/
def step (rl : RateLimiter) (op : ℤ × Op) : RateLimiter :=
  match op.2 with
  | .check => (rl.checkLimit op.1).2
  | .getTokens => (rl.getAvailableTokens op.1).2
  | .reset => rl.reset op.1

/-- Run a sequence of timestamped operations. -/
def run (rl : RateLimiter) (ops : List (ℤ × Op)) : RateLimiter :=
  ops.foldl step rl

end RateLimiter

/-! ## Retry wrapper of the secure Graph client (`src/graph/client.ts`) -/

namespace SecureGraphClient

/-- Private method `isTransientError` of `SecureGraphClient`:
a `GraphAPIError` is transient iff its message contains
"temporarily unavailable"; an `AuthenticationError` is never transient;
otherwise only errors named `FetchError` or `NetworkError` are transient
(the remaining error classes fall through to that name test and fail it). -/
def isTransientError (e : JsError) : Bool :=
  match e with
  | .graphAPI m => StrScan.containsSubstr "temporarily unavailable" m
  | .authentication _ => false
  | .other name _ => name = "FetchError" || name = "NetworkError"
  | .validation _ => false
  | .rateLimit _ _ => false
  | .tokenStorage _ => false

/-- The error produced by `handleResponse` for a non-2xx HTTP status
(the status-code switch of `client.ts`). -/
def handleResponseError (status : ℕ) : JsError :=
  if status = 401 then .authentication "Authentication token invalid or expired"
  else if status = 429 then .graphAPI "Rate limit exceeded. Please try again later."
  else if status = 503 ∨ status = 504 then
    .graphAPI "Microsoft Graph service temporarily unavailable"
  else .graphAPI ("Graph API request failed with status " ++ toString status)

/-- The delay slept before retry number `attempt + 1`:
`Math.floor(delayMs + jitter)` with `delayMs = baseRetryDelayMs * 2^attempt`
and `jitter = Math.random() * 0.3 * delayMs`; `rand attempt` models the
`Math.random()` draw of that attempt. -/
def retryDelay (baseRetryDelayMs : ℚ) (rand : ℕ → ℚ) (attempt : ℕ) : ℤ :=
  let delayMs := baseRetryDelayMs * 2 ^ attempt
  let jitter := rand attempt * (3 / 10) * delayMs
  ⌊delayMs + jitter⌋

/-- Trace of one `executeWithRetry` run: how many times `fn` was invoked,
the backoff delays slept in order, and the surfaced result. -/
structure RetryTrace (α : Type) where
  attempts : ℕ
  delays : List ℤ
  result : Except JsError α
  deriving Repr

/-- Private method `executeWithRetry` of `SecureGraphClient`.  The wrapped
`fn` is modelled by the outcome of each numbered invocation
(`fn k` = result of the `k`-th call of the wrapped function); `rand` models
the `Math.random()` stream.  The recursion mirrors the source: a
non-transient error or an exhausted retry budget surfaces immediately,
otherwise sleep and recurse with `attempt + 1`.
The recursion is made structural on `fuel = maxRetries - attempt` (the
source recurses with `attempt + 1` only while `attempt < maxRetries`, so
this quantity strictly decreases); `executeWithRetry_eq` below recovers the
recursion exactly as the source writes it. -/
def executeWithRetryAux {α : Type} (maxRetries : ℕ) (baseRetryDelayMs : ℚ)
    (fn : ℕ → Except JsError α) (rand : ℕ → ℚ) : ℕ → ℕ → RetryTrace α
  | fuel, attempt =>
    match fn attempt with
    | .ok v => ⟨1, [], .ok v⟩
    | .error e =>
      if ¬ isTransientError e then ⟨1, [], .error e⟩
      else if maxRetries ≤ attempt then ⟨1, [], .error e⟩
      else
        match fuel with
        | 0 => ⟨1, [], .error e⟩  -- unreachable when fuel = maxRetries - attempt
        | fuel + 1 =>
          let d := retryDelay baseRetryDelayMs rand attempt
          let rest := executeWithRetryAux maxRetries baseRetryDelayMs fn rand fuel (attempt + 1)
          ⟨rest.attempts + 1, d :: rest.delays, rest.result⟩

/-- Private method `executeWithRetry` of `SecureGraphClient`, entered at the
given `attempt` number (the public verbs call it with `attempt = 0`). -/
def executeWithRetry {α : Type} (maxRetries : ℕ) (baseRetryDelayMs : ℚ)
    (fn : ℕ → Except JsError α) (rand : ℕ → ℚ) (attempt : ℕ) : RetryTrace α :=
  executeWithRetryAux maxRetries baseRetryDelayMs fn rand (maxRetries - attempt) attempt

end SecureGraphClient

/-! ## Input validators (`src/security/validators.ts`)

The OData filter validator uses five suspicious-pattern regexes, a field
extraction regex and an operator extraction regex.  Each is compiled here
into a deterministic scanner; the determinism arguments (why greedy
matching with backtracking collapses to maximal-munch) are given at each
definition. -/

namespace Validators

/-- JavaScript regex `\w`: `[A-Za-z0-9_]`. -/
def isWordChar (c : Char) : Bool :=
  ('a' ≤ c && c ≤ 'z') || ('A' ≤ c && c ≤ 'Z') || ('0' ≤ c && c ≤ '9') || c = '_'

/-- JavaScript regex `\s` restricted to its ASCII members
(space, tab, line feed, carriage return, vertical tab, form feed); the
Unicode space characters also matched by `\s` do not occur in any string
the development evaluates. -/
def isSpaceChar (c : Char) : Bool :=
  c = ' ' || c = '\t' || c = '\n' || c = '\r' ||
    c = Char.ofNat 11 || c = Char.ofNat 12

/-- Maximal run of `\w` characters at the head of the input, with the
remainder. -/
def takeWordRun : List Char → List Char × List Char
  | [] => ([], [])
  | c :: cs =>
    if isWordChar c then
      let p := takeWordRun cs
      (c :: p.1, p.2)
    else ([], c :: cs)

/-- Maximal run of `\s` characters at the head of the input, with the
remainder. -/
def takeSpaceRun : List Char → List Char × List Char
  | [] => ([], [])
  | c :: cs =>
    if isSpaceChar c then
      let p := takeSpaceRun cs
      (c :: p.1, p.2)
    else ([], c :: cs)

/-- Case-insensitive match of the lowercase pattern `(?:eq|ne|gt|ge|lt|le)`
at the head of the input (all six alternatives have length two, so which
alternative matches does not affect how much input is consumed). -/
def cmpOpAt : List Char → Bool
  | a :: b :: _ =>
    let a := a.toLower
    let b := b.toLower
    (a = 'e' && b = 'q') || (a = 'n' && b = 'e') || (a = 'g' && b = 't') ||
      (a = 'g' && b = 'e') || (a = 'l' && b = 't') || (a = 'l' && b = 'e')
  | _ => false

/-- The `\s+(?:eq|ne|gt|ge|lt|le)` tail of the field-extraction regex,
returning the number of characters it consumes.  Determinism: `\s+` is
greedy; if it stopped before the end of the whitespace run, the alternation
would have to match at a whitespace character, which is impossible (all
alternatives start with letters), so the whole run is consumed. -/
def fieldTryRest (r : List Char) : Option ℕ :=
  let p := takeSpaceRun r
  if p.1 = [] then none
  else if cmpOpAt p.2 then some (p.1.length + 2) else none

/-- One attempt of the field-extraction regex
`(\w+)(?:\/\w+)?\s+(?:eq|ne|gt|ge|lt|le)` (flags `gi`) at the current
position: returns the captured field and the number of consumed characters
minus one.  Determinism: `(\w+)` is greedy; had it stopped inside the word
run, the next pattern element (`/` or `\s`) would face a word character and
fail, so the full run is taken.  If a `/`-navigation part is present but the
tail fails after it, backtracking to "optional part not taken" also fails
because `\s+` then faces the `/`; hence no further backtracking exists. -/
def fieldMatchAt (s : List Char) : Option (List Char × ℕ) :=
  let p := takeWordRun s
  if p.1 = [] then none
  else
    match p.2 with
    | c :: r3 =>
      if c = '/' then
        let q := takeWordRun r3
        if q.1 = [] then none
        else
          match fieldTryRest q.2 with
          | some k => some (p.1, p.1.length + 1 + q.1.length + k - 1)
          | none => none
      else
        match fieldTryRest (c :: r3) with
        | some k => some (p.1, p.1.length + k - 1)
        | none => none
    | [] => none

/-- `String.prototype.matchAll` over the field-extraction regex: scan left
to right; after a match resume immediately after its end (matches are
non-overlapping, and every match consumes at least one character so
`lastIndex` always advances), otherwise advance one position.  The `fuel`
argument makes the recursion structural (every step removes at least one
character, so `fuel = s.length` always suffices; see
`fieldScanAux_fuel_irrelevant`). -/
def fieldScanAux : ℕ → List Char → List (List Char)
  | 0, _ => []
  | _, [] => []
  | fuel + 1, c :: cs =>
    match fieldMatchAt (c :: cs) with
    | some (f, n) => f :: fieldScanAux fuel ((c :: cs).drop (n + 1))
    | none => fieldScanAux fuel cs

/-- All matches of the field-extraction regex, in order. -/
def fieldScan (s : List Char) : List (List Char) :=
  fieldScanAux s.length s

/-- Case-insensitive prefix stripping: `dropPrefixCI kw s` returns the
remainder of `s` after a case-insensitive match of the (lowercase) pattern
`kw`, if it matches. -/
def dropPrefixCI : List Char → List Char → Option (List Char)
  | [], s => some s
  | _ :: _, [] => none
  | k :: ks, c :: cs => if c.toLower = k then dropPrefixCI ks cs else none

/-- The alternatives of the operator-extraction regex
`\s+(eq|ne|gt|ge|lt|le|and|or|not)\s+` (flags `gi`), in source order. -/
def opAlts : List (List Char) :=
  [['e','q'], ['n','e'], ['g','t'], ['g','e'], ['l','t'], ['l','e'],
   ['a','n','d'], ['o','r'], ['n','o','t']]

/-- Try the operator alternatives in order at the current position; an
alternative succeeds when it matches case-insensitively and is followed by
at least one whitespace character (the trailing `\s+`, which then greedily
consumes its whole run).  Returns the alternative (which, all alternatives
being lowercase, equals the lowercased captured text) and the number of
characters consumed from this position. -/
def altTry (r : List Char) : List (List Char) → Option (List Char × ℕ)
  | [] => none
  | alt :: alts =>
    match dropPrefixCI alt r with
    | some r2 =>
      let p := takeSpaceRun r2
      if p.1 = [] then altTry r alts
      else some (alt, alt.length + p.1.length)
    | none => altTry r alts

/-- One attempt of the operator-extraction regex at the current position:
leading `\s+` (greedy; stopping early would put a letter-initial
alternative on a whitespace character, so the whole run is consumed), then
the alternation, then trailing `\s+`.  Returns the lowercased captured
operator and the number of consumed characters minus one. -/
def opMatchAt (s : List Char) : Option (List Char × ℕ) :=
  let p := takeSpaceRun s
  if p.1 = [] then none
  else
    match altTry p.2 opAlts with
    | some (alt, k) => some (alt, p.1.length + k - 1)
    | none => none

/-- `matchAll` over the operator-extraction regex (same scanning discipline
and fuel convention as `fieldScanAux`). -/
def opScanAux : ℕ → List Char → List (List Char)
  | 0, _ => []
  | _, [] => []
  | fuel + 1, c :: cs =>
    match opMatchAt (c :: cs) with
    | some (o, n) => o :: opScanAux fuel ((c :: cs).drop (n + 1))
    | none => opScanAux fuel cs

/-- All matches of the operator-extraction regex, in order. -/
def opScan (s : List Char) : List (List Char) :=
  opScanAux s.length s

/-- `ALLOWED_FILTER_FIELDS` of `validators.ts`. -/
def ALLOWED_FILTER_FIELDS : List String :=
  ["status", "importance", "dueDateTime", "createdDateTime",
   "lastModifiedDateTime", "isReminderOn", "title"]

/-- `ALLOWED_OPERATORS` of `validators.ts`. -/
def ALLOWED_OPERATORS : List String :=
  ["eq", "ne", "gt", "ge", "lt", "le", "and", "or", "not"]

/-- The character class `[;<>{}[\]\\]` of the first suspicious pattern. -/
def suspiciousChar (c : Char) : Bool :=
  c = ';' || c = '<' || c = '>' || c = '\x7b' || c = '\x7d' ||
    c = '[' || c = ']' || c = '\\'

/-- The keyword list of the suspicious pattern
`\b(drop|delete|update|insert|exec|script|eval|process|require)\b` (flag
`i`), stored lowercase. -/
def SUSPICIOUS_KEYWORDS : List (List Char) :=
  [("drop").data, ("delete").data, ("update").data, ("insert").data,
   ("exec").data, ("script").data, ("eval").data, ("process").data,
   ("require").data]

/-- Word-boundary keyword test at the current position.  Since every
keyword starts and ends with a letter, the leading `\b` is equivalent to
"the previous character is absent or not `\w`", and the trailing `\b` to
"the next character is absent or not `\w`". -/
def kwHereWB (prevWord : Bool) (s : List Char) (kw : List Char) : Bool :=
  !prevWord &&
    match dropPrefixCI kw s with
    | some [] => true
    | some (c :: _) => !isWordChar c
    | none => false

/-- Scan for a word-boundary keyword occurrence; `prevWord` records whether
the previous character was a `\w` character. -/
def hasKeywordAux (prevWord : Bool) : List Char → Bool
  | [] => false
  | c :: cs =>
    SUSPICIOUS_KEYWORDS.any (kwHereWB prevWord (c :: cs)) ||
      hasKeywordAux (isWordChar c) cs

/-- Test for `\b(drop|delete|update|insert|exec|script|eval|process|require)\b`
(flag `i`). -/
def hasSuspiciousKeyword (s : List Char) : Bool := hasKeywordAux false s

/-- Case-insensitive substring search, for the patterns `<script` and
`javascript:` (flag `i`). -/
def hasSubstrCI (pat : List Char) : List Char → Bool
  | [] => pat.isEmpty
  | c :: cs => (dropPrefixCI pat (c :: cs)).isSome || hasSubstrCI pat cs

/-- One attempt of `on\w+\s*=` (flag `i`) at the current position.
Determinism: `\w+` greedy — stopping early puts a word character where
`\s*` matches nothing and `=` is then required, which fails; `\s*` greedy —
stopping early puts a whitespace character where `=` is required, which
fails.  So the maximal runs are forced. -/
def eventHandlerAt (s : List Char) : Bool :=
  match s with
  | c1 :: c2 :: r =>
    c1.toLower = 'o' && c2.toLower = 'n' &&
      (let p := takeWordRun r
       !p.1.isEmpty &&
         (let q := takeSpaceRun p.2
          q.2.headD ' ' = '='))
  | _ => false

/-- Test for `on\w+\s*=` (flag `i`). -/
def hasEventHandler : List Char → Bool
  | [] => false
  | c :: cs => eventHandlerAt (c :: cs) || hasEventHandler cs

/-- `String.prototype.trim` (ASCII whitespace; see `isSpaceChar`). -/
def jsTrim (l : List Char) : List Char :=
  ((l.dropWhile isSpaceChar).reverse.dropWhile isSpaceChar).reverse

/-- The combined suspicious-pattern screen of `validateODataFilter`, in
source order. -/
def filterSuspicious (t : List Char) : Bool :=
  t.any suspiciousChar || hasSuspiciousKeyword t ||
    hasSubstrCI ("<script").data t || hasSubstrCI ("javascript:").data t ||
    hasEventHandler t

/-- The message thrown for a non-whitelisted filter field. -/
def invalidFieldMessage (field : String) : String :=
  "Invalid filter field: " ++ field ++ ". Allowed fields: " ++
    String.intercalate ", " ALLOWED_FILTER_FIELDS

/-- The message thrown for a non-whitelisted operator. -/
def invalidOperatorMessage (op : String) : String :=
  "Invalid operator: " ++ op ++ ". Allowed operators: " ++
    String.intercalate ", " ALLOWED_OPERATORS

/-- `validateODataFilter` of `validators.ts`: empty or whitespace-only
filters pass; then the null-byte check, the five suspicious patterns, the
field whitelist over all field-extraction matches (first offender throws),
and the operator whitelist over all operator-extraction matches. -/
def validateODataFilter (filter : String) : Except JsError Unit :=
  if filter.data = [] ∨ jsTrim filter.data = [] then .ok ()
  else
    let trimmed := jsTrim filter.data
    if trimmed.contains (Char.ofNat 0) then
      .error (.validation "Filter contains null bytes")
    else if filterSuspicious trimmed then
      .error (.validation "Filter contains invalid characters or patterns")
    else
      match (fieldScan trimmed).find?
          (fun f => !(ALLOWED_FILTER_FIELDS.contains (String.mk f))) with
      | some f => .error (.validation (invalidFieldMessage (String.mk f)))
      | none =>
        match (opScan trimmed).find?
            (fun o => !(ALLOWED_OPERATORS.contains (String.mk o))) with
        | some o => .error (.validation (invalidOperatorMessage (String.mk o)))
        | none => .ok ()

end Validators

/-! ## Whitelist filter grammar (specification side)

The specification promises acceptance for "every string built from allowed
fields and allowed operators only".  The following grammar renders such
strings: comparison conditions `field cmp 'literal'` joined by the logical
connectors `and` / `or`, with single spaces between tokens, exactly as in
the specification's examples
(`"status eq 'completed' and importance eq 'high'"`). -/

namespace FilterGrammar

/-- One comparison condition `field cmp 'lit'`. -/
structure Cond where
  field : List Char
  cmp : List Char
  lit : List Char

/-- A logical connector between conditions. -/
inductive Conn where
  | and
  | or

/-- Text of a connector. -/
def Conn.render : Conn → List Char
  | .and => ("and").data
  | .or => ("or").data

/-- Text of a condition: `field cmp 'lit'`. -/
def renderCond (c : Cond) : List Char :=
  c.field ++ [' '] ++ c.cmp ++ [' ', '\''] ++ c.lit ++ ['\'']

/-- Text of the connector-prefixed continuation conditions. -/
def renderTail : List (Conn × Cond) → List Char
  | [] => []
  | (k, c) :: rest => [' '] ++ k.render ++ [' '] ++ renderCond c ++ renderTail rest

/-- Full filter text of a grammar term. -/
def renderFilter (c : Cond) (rest : List (Conn × Cond)) : String :=
  String.mk (renderCond c ++ renderTail rest)

/-- A letter or digit. -/
def isAlphaNumChar (c : Char) : Bool :=
  ('a' ≤ c && c ≤ 'z') || ('A' ≤ c && c ≤ 'Z') || ('0' ≤ c && c ≤ '9')

/-- Spec-side reading of C3's positive direction: a condition is "built
exclusively from whitelisted fields, whitelisted operators and quoted
literal values" when its field is a member of the field whitelist, its
comparison operator is one of `eq ne gt ge lt le`, and its literal is a
nonempty quoted run of letters and digits. -/
def specCondOK (c : Cond) : Bool :=
  Validators.ALLOWED_FILTER_FIELDS.any (fun a => a = String.mk c.field) &&
    (["eq", "ne", "gt", "ge", "lt", "le"] : List String).any
      (fun a => a = String.mk c.cmp) &&
    (!c.lit.isEmpty && c.lit.all isAlphaNumChar)

/-- Spec-side reading of C3's positive direction for a whole filter. -/
def specFilterOK (c : Cond) (rest : List (Conn × Cond)) : Bool :=
  specCondOK c && rest.all (fun p => specCondOK p.2)

/-- The two-character comparison alternatives, as character lists. -/
def sixAlts : List (List Char) :=
  [['e','q'], ['n','e'], ['g','t'], ['g','e'], ['l','t'], ['l','e']]

/-- A field shape acceptable to the scanners: nonempty, all `\w` characters,
its first two characters do not form a comparison operator (so that a
preceding connector is not mistaken for a field), and its lowercasing is
not one of the blacklisted keywords. -/
def fieldShapeOK (f : List Char) : Bool :=
  !f.isEmpty && f.all Validators.isWordChar &&
    (match f with
     | a :: b :: _ => !(Validators.cmpOpAt [a, b])
     | _ => true) &&
    !(Validators.SUSPICIOUS_KEYWORDS.any (fun kw => kw = f.map Char.toLower))

/-- A literal acceptable to the suspicious-pattern screens: nonempty, all
letters and digits, and not a blacklisted keyword. -/
def litSafe (l : List Char) : Bool :=
  !l.isEmpty && l.all isAlphaNumChar &&
    !(Validators.SUSPICIOUS_KEYWORDS.any (fun kw => kw = l.map Char.toLower))

/-- The safety hypotheses of the amended claim for one condition: the field
is scanner-acceptable (membership in the whitelist is *not* required here —
the amended claim quantifies over both whitelisted and foreign fields), the
comparison operator is one of the six, and the literal is screen-safe. -/
def condSafe (c : Cond) : Bool :=
  fieldShapeOK c.field && sixAlts.any (fun a => a = c.cmp) && litSafe c.lit

/-- The fields of a grammar term, in order. -/
def condFields (c : Cond) (rest : List (Conn × Cond)) : List (List Char) :=
  c.field :: rest.map (fun p => p.2.field)

/-- Character classification of rendered grammar filters: every character is
a `\w` character, a space, or a single quote. -/
def renderCharOK (c : Char) : Bool :=
  Validators.isWordChar c || c = ' ' || c = '\''

end FilterGrammar

/-! ## Output sanitizers (`src/security/sanitizers.ts`) -/

namespace Sanitizers

/-- A thrown JavaScript value as seen by `sanitizeError`: either an `Error`
object (with its `name`, `message` and optional `stack` properties) or any
non-`Error` value. -/
inductive Thrown where
  | error (name message : String) (stack : Option String)
  | nonError (description : String)

/-- The return shape of `sanitizeError`: `{error: string; code?: string}`. -/
structure SanitizedError where
  error : String
  code : Option String
  deriving DecidableEq, Repr

/-- `sanitizeError` of `sanitizers.ts`: an `Error` maps to its message with
the error name as `code` unless the name is the generic `"Error"`; anything
else maps to a fixed generic message. -/
def sanitizeError : Thrown → SanitizedError
  | .error name message _ =>
    { error := message
      code := if name ≠ "Error" then some name else none }
  | .nonError _ => { error := "An unexpected error occurred", code := none }

/-- `JSON.stringify` on the sanitized shape (property order as constructed:
`error` then `code`; values are assumed not to need JSON escaping, which
holds for every string this development evaluates). -/
def serializeSanitized (s : SanitizedError) : String :=
  match s.code with
  | some c => "\x7b\"error\":\"" ++ s.error ++ "\",\"code\":\"" ++ c ++ "\"\x7d"
  | none => "\x7b\"error\":\"" ++ s.error ++ "\"\x7d"

end Sanitizers

/-! ## Calendar date-string validator (`validateDateString` of
`src/security/validators.ts`) -/

namespace DateVal

/-- A JavaScript `Date` (a calendar instant), modelled as a year plus the
position within the year (months, days and time of day collapsed into one
rational offset, in milliseconds since the start of the year).  Instants
compare lexicographically — for real calendar data year-first comparison
agrees with timestamp comparison — and `setFullYear` replaces the year and
keeps the offset (the model ignores the Feb-29 rollover of `setFullYear`
into a non-leap year, which the verified claims do not exercise). -/
structure JSDate where
  year : ℤ
  offset : ℚ
  deriving DecidableEq, Repr

/-- Timestamp order on calendar instants (lexicographic). -/
def JSDate.lt (a b : JSDate) : Bool :=
  a.year < b.year || (a.year = b.year && a.offset < b.offset)

/-- `date.setFullYear(y)`. -/
def JSDate.setFullYear (d : JSDate) (y : ℤ) : JSDate := { d with year := y }

/-- `validateDateString` of `validators.ts`.  `parse` models the JavaScript
`new Date(string)` constructor (returning `none` where JavaScript returns
an Invalid Date, i.e. `isNaN(date.getTime())`); `now` models the current
instant read by `new Date()`. -/
def validateDateString (parse : String → Option JSDate) (now : JSDate)
    (dateStr fieldName : String) : Except JsError JSDate :=
  if dateStr = "" then .error (.validation (fieldName ++ " is required"))
  else
    let trimmed := String.mk (Validators.jsTrim dateStr.data)
    if trimmed.data.any (fun c => c = Char.ofNat 0) then
      .error (.validation (fieldName ++ " contains null bytes"))
    else
      match parse trimmed with
      | none =>
        .error (.validation
          (fieldName ++ " is not a valid date format. Use ISO format (e.g., 2025-01-15)"))
      | some date =>
        let minDate := now.setFullYear (now.year - 5)
        let maxDate := now.setFullYear (now.year + 5)
        if JSDate.lt date minDate || JSDate.lt maxDate date then
          .error (.validation (fieldName ++ " must be within 5 years of today"))
        else .ok date

end DateVal

-- ===== THEOREMS SECTION PLACEHOLDER =====

namespace StrScan

theorem startsWithL_nil (s : List Char) : startsWithL [] s = true := by
  cases s <;> rfl

theorem containsSubstrL_nil (s : List Char) : containsSubstrL [] s = true := by
  cases s <;> simp [containsSubstrL, startsWithL_nil]

/-- A pattern that starts somewhere in `s` also starts there after appending. -/
theorem startsWithL_append_of (p s t : List Char) (h : startsWithL p s = true) :
    startsWithL p (s ++ t) = true := by
  induction p generalizing s with
  | nil => exact startsWithL_nil _
  | cons a ps ih =>
    cases s with
    | nil => simp [startsWithL] at h
    | cons c cs =>
      simp only [startsWithL, Bool.and_eq_true, decide_eq_true_eq] at h ⊢
      exact ⟨h.1, ih cs h.2⟩

/-- Occurrence in a left part survives appending on the right. -/
theorem containsSubstrL_append_left (p s t : List Char)
    (h : containsSubstrL p s = true) : containsSubstrL p (s ++ t) = true := by
  induction s with
  | nil =>
    have : p = [] := by
      cases p with
      | nil => rfl
      | cons a ps => simp [containsSubstrL, startsWithL] at h
    subst this; exact containsSubstrL_nil _
  | cons c cs ih =>
    simp only [containsSubstrL, Bool.or_eq_true] at h
    rcases h with h | h
    · simp only [List.cons_append, containsSubstrL, Bool.or_eq_true]
      exact Or.inl (startsWithL_append_of _ _ _ h)
    · simp only [List.cons_append, containsSubstrL, Bool.or_eq_true]
      exact Or.inr (ih h)

/-- Occurrence in a right part survives appending on the left. -/
theorem containsSubstrL_append_right (p s t : List Char)
    (h : containsSubstrL p t = true) : containsSubstrL p (s ++ t) = true := by
  induction s with
  | nil => simpa using h
  | cons c cs ih =>
    simp only [List.cons_append, containsSubstrL, Bool.or_eq_true]
    exact Or.inr ih

/-- Prefix decomposition across an append: if `p` starts `x ++ y` then either
`p` starts `x`, or `p` extends all of `x` into `y`. -/
theorem startsWithL_append_cases (p x y : List Char)
    (h : startsWithL p (x ++ y) = true) :
    startsWithL p x = true ∨ ∃ p2, p = x ++ p2 ∧ startsWithL p2 y = true := by
  induction x generalizing p with
  | nil => exact Or.inr ⟨p, rfl, h⟩
  | cons a xs ih =>
    cases p with
    | nil => exact Or.inl (startsWithL_nil _)
    | cons b ps =>
      simp only [List.cons_append, startsWithL, Bool.and_eq_true,
        decide_eq_true_eq] at h
      rcases ih ps h.2 with h' | ⟨p2, rfl, h2⟩
      · exact Or.inl (by simp [startsWithL, h.1, h'])
      · exact Or.inr ⟨p2, by simp [h.1], h2⟩

/-- Occurrence decomposition across an append: an occurrence of `p` in
`x ++ y` lies in `x`, lies in `y`, or straddles the junction (a nonempty
suffix `p1` of `x` followed by a nonempty prefix `p2` of `y`). -/
theorem containsSubstrL_append_cases (p x y : List Char)
    (h : containsSubstrL p (x ++ y) = true) :
    containsSubstrL p x = true ∨ containsSubstrL p y = true ∨
      ∃ p1 p2, p = p1 ++ p2 ∧ p1 ≠ [] ∧ p2 ≠ [] ∧
        (∃ x1, x = x1 ++ p1) ∧ startsWithL p2 y = true := by
  induction x with
  | nil => exact Or.inr (Or.inl (by simpa using h))
  | cons a xs ih =>
    rw [List.cons_append] at h
    simp only [containsSubstrL, Bool.or_eq_true] at h
    rcases h with h | h
    · rcases startsWithL_append_cases p (a :: xs) y h with h' | ⟨p2, rfl, h2⟩
      · left
        cases xs with
        | nil => simp [containsSubstrL, h']
        | cons b bs => simp [containsSubstrL, h']
      · cases p2 with
        | nil =>
          left
          have : startsWithL ((a :: xs) ++ []) ((a :: xs)) = true := by
            have := startsWithL_append_of (a :: xs) (a :: xs) [] ?_
            · simpa using this
            · have : ∀ l : List Char, startsWithL l l = true := by
                intro l; induction l with
                | nil => rfl
                | cons c cs ihl => simp [startsWithL, ihl]
              exact this _
          simp only [List.append_nil] at this
          cases xs with
          | nil => simp [containsSubstrL, this]
          | cons b bs => simp [containsSubstrL, this]
        | cons q qs =>
          right; right
          exact ⟨a :: xs, q :: qs, rfl, by simp, by simp, ⟨[], rfl⟩, h2⟩
    · rcases ih h with h' | h' | ⟨p1, p2, rfl, hp1, hp2, ⟨x1, hx1⟩, h2⟩
      · left
        simp [containsSubstrL, h']
      · exact Or.inr (Or.inl h')
      · right; right
        exact ⟨p1, p2, rfl, hp1, hp2, ⟨a :: x1, by simp [hx1]⟩, h2⟩

/-- Every nonempty suffix of a list ending in `q` contains `q`. -/
theorem mem_of_suffix_getLast (x1 p1 : List Char) (q : Char) (x0 : List Char)
    (hx : x1 ++ p1 = x0 ++ [q]) (hne : p1 ≠ []) : q ∈ p1 := by
  have h1 : (x1 ++ p1).getLast? = p1.getLast? :=
    List.getLast?_append_of_ne_nil x1 hne
  have h2 : (x0 ++ [q]).getLast? = some q := by
    rw [List.getLast?_append_of_ne_nil x0 (by simp)]; rfl
  have h3 : p1.getLast? = some q := by rw [← h1, hx, h2]
  rcases List.mem_getLast?_eq_getLast (show q ∈ p1.getLast? by rw [h3]; rfl)
    with ⟨h4, h5⟩
  rw [h5]
  exact List.getLast_mem h4

/-- Junction lemma, left form: if the left part ends with a character `q`
that does not occur in the pattern, an occurrence cannot straddle the
junction. -/
theorem containsSubstrL_append_elim_left (p x0 y : List Char) (q : Char)
    (hq : q ∉ p)
    (h : containsSubstrL p ((x0 ++ [q]) ++ y) = true) :
    containsSubstrL p (x0 ++ [q]) = true ∨ containsSubstrL p y = true := by
  rcases containsSubstrL_append_cases p (x0 ++ [q]) y h with h' | h' |
    ⟨p1, p2, rfl, hp1, _, ⟨x1, hx1⟩, _⟩
  · exact Or.inl h'
  · exact Or.inr h'
  · exfalso
    exact hq (List.mem_append.mpr (Or.inl (mem_of_suffix_getLast x1 p1 q x0 hx1.symm hp1)))

/-- Junction lemma, right form: if the right part starts with a character `q`
that does not occur in the pattern, an occurrence cannot straddle the
junction. -/
theorem containsSubstrL_append_elim_right (p x y0 : List Char) (q : Char)
    (hq : q ∉ p)
    (h : containsSubstrL p (x ++ (q :: y0)) = true) :
    containsSubstrL p x = true ∨ containsSubstrL p (q :: y0) = true := by
  rcases containsSubstrL_append_cases p x (q :: y0) h with h' | h' |
    ⟨p1, p2, rfl, _, hp2, _, h2⟩
  · exact Or.inl h'
  · exact Or.inr h'
  · exfalso
    cases p2 with
    | nil => exact hp2 rfl
    | cons c cs =>
      simp only [startsWithL, Bool.and_eq_true, decide_eq_true_eq] at h2
      exact hq (List.mem_append.mpr (Or.inr (by simp [h2.1])))

end StrScan


/-- `(a ++ b).data = a.data ++ b.data` for strings. -/
theorem str_data_append (a b : String) : (a ++ b).data = a.data ++ b.data := rfl

/-- The open-circuit message always mentions that the circuit breaker is
open. -/
theorem openMessage_mentions_open (cb : CircuitBreaker) (now : ℤ) :
    StrScan.containsSubstr "Circuit breaker is open"
      (CircuitBreaker.openMessage cb now) = true := by
  have h1 : StrScan.containsSubstrL ("Circuit breaker is open").data
      ("Service temporarily unavailable. Circuit breaker is open. Retry in ").data
      = true := by decide
  unfold CircuitBreaker.openMessage StrScan.containsSubstr
  rw [str_data_append, str_data_append]
  exact StrScan.containsSubstrL_append_left _ _ _
    (StrScan.containsSubstrL_append_left _ _ _ h1)

/-! ## Claims about the circuit breaker -/

/-- C5: for every call to the circuit breaker's `execute(fn)` made while the
state is `OPEN` and `now < openedUntil` (`nextAttemptTime`), the call fails
with a `GraphAPIError` whose message indicates the circuit breaker is open,
the wrapped `fn` is never invoked, and the breaker's counters and
`openedUntil` are unchanged by the rejected call. -/
theorem claim_C5_open_fail_fast {α : Type} (cb : CircuitBreaker)
    (nowCall nowResolve : ℤ) (outcome : Except JsError α)
    (hs : cb.state = .OPEN) (ht : nowCall < cb.nextAttemptTime) :
    cb.execute nowCall nowResolve outcome =
      ⟨.error (.graphAPI (cb.openMessage nowCall)), cb, false⟩ ∧
      StrScan.containsSubstr "Circuit breaker is open" (cb.openMessage nowCall)
        = true := by
  refine ⟨?_, openMessage_mentions_open cb nowCall⟩
  unfold CircuitBreaker.execute
  rw [if_pos ⟨hs, ht⟩]

/-- Witness for C5 at a concrete breaker (`OPEN`, `nextAttemptTime = 10000`)
and a concrete pre-timeout call (`now = 5000`). -/
theorem claim_C5_open_fail_fast_witness :
    CircuitBreaker.execute (α := ℕ) ⟨.OPEN, 5, 0, 10000, 5, 2, 60000⟩ 5000 5000
        (.ok 0) =
      ⟨.error (.graphAPI
          (CircuitBreaker.openMessage ⟨.OPEN, 5, 0, 10000, 5, 2, 60000⟩ 5000)),
        ⟨.OPEN, 5, 0, 10000, 5, 2, 60000⟩, false⟩ ∧
      StrScan.containsSubstr "Circuit breaker is open"
        (CircuitBreaker.openMessage ⟨.OPEN, 5, 0, 10000, 5, 2, 60000⟩ 5000)
        = true :=
  claim_C5_open_fail_fast _ 5000 5000 _ rfl (by decide)

/-- C6: in `CLOSED` state, a failure of `fn` increments `failureCount` and
rethrows the original error; the state stays `CLOSED` while the incremented
count is below `failureThreshold` and becomes `OPEN` with
`nextAttemptTime = now + timeout` exactly when the count reaches the
threshold; a success resets `failureCount` to `0` and stays `CLOSED`. -/
theorem claim_C6_closed_transitions {α : Type} (cb : CircuitBreaker)
    (nowCall nowResolve : ℤ) (e : JsError) (v : α) (hs : cb.state = .CLOSED) :
    ((cb.execute nowCall nowResolve (.error e : Except JsError α)).result
        = .error e ∧
      (cb.execute nowCall nowResolve (.error e : Except JsError α)).invoked
        = true ∧
      (cb.execute nowCall nowResolve
          (.error e : Except JsError α)).breaker.failureCount
        = cb.failureCount + 1 ∧
      (cb.failureCount + 1 < cb.failureThreshold →
        (cb.execute nowCall nowResolve
            (.error e : Except JsError α)).breaker.state = .CLOSED ∧
        (cb.execute nowCall nowResolve
            (.error e : Except JsError α)).breaker.nextAttemptTime
          = cb.nextAttemptTime) ∧
      (cb.failureThreshold ≤ cb.failureCount + 1 →
        (cb.execute nowCall nowResolve
            (.error e : Except JsError α)).breaker.state = .OPEN ∧
        (cb.execute nowCall nowResolve
            (.error e : Except JsError α)).breaker.nextAttemptTime
          = nowResolve + cb.timeout)) ∧
    cb.execute nowCall nowResolve (.ok v)
      = ⟨.ok v, { cb with failureCount := 0 }, true⟩ := by
  have hno : ¬(cb.state = .OPEN ∧ nowCall < cb.nextAttemptTime) := by
    rw [hs]; rintro ⟨h, -⟩; exact CircuitState.noConfusion h
  have hstep : ∀ o : Except JsError α, cb.execute nowCall nowResolve o =
      match o with
      | .ok v => ⟨.ok v, cb.onSuccess, true⟩
      | .error e => ⟨.error e, cb.onFailure nowResolve, true⟩ := by
    intro o
    unfold CircuitBreaker.execute
    rw [if_neg hno, hs]
    cases o <;> simp
  refine ⟨?_, ?_⟩
  · rw [hstep]
    by_cases hth : cb.failureThreshold ≤ cb.failureCount + 1
    · refine ⟨rfl, rfl, ?_, ?_, ?_⟩
      · simp [CircuitBreaker.onFailure, hth]
      · intro h; omega
      · intro _
        constructor <;> simp [CircuitBreaker.onFailure, hth]
    · refine ⟨rfl, rfl, ?_, ?_, ?_⟩
      · simp [CircuitBreaker.onFailure, hth]
      · intro _
        constructor <;> simp [CircuitBreaker.onFailure, hth, hs]
      · intro h; omega
  · rw [hstep]
    have : cb.onSuccess = { cb with failureCount := 0 } := by
      unfold CircuitBreaker.onSuccess
      simp [hs]
    rw [this]

/-- Witness for C6 at a concrete `CLOSED` breaker with `failureCount = 1`
and `failureThreshold = 3`. -/
theorem claim_C6_closed_transitions_witness :
    ((CircuitBreaker.execute (α := ℕ) ⟨.CLOSED, 1, 0, 0, 3, 2, 60000⟩ 100 200
          (.error (.other "Error" "boom"))).result
        = .error (.other "Error" "boom") ∧
      (CircuitBreaker.execute (α := ℕ) ⟨.CLOSED, 1, 0, 0, 3, 2, 60000⟩ 100 200
          (.error (.other "Error" "boom"))).invoked = true ∧
      (CircuitBreaker.execute (α := ℕ) ⟨.CLOSED, 1, 0, 0, 3, 2, 60000⟩ 100 200
          (.error (.other "Error" "boom"))).breaker.failureCount = 1 + 1 ∧
      (1 + 1 < 3 →
        (CircuitBreaker.execute (α := ℕ) ⟨.CLOSED, 1, 0, 0, 3, 2, 60000⟩ 100 200
            (.error (.other "Error" "boom"))).breaker.state = .CLOSED ∧
        (CircuitBreaker.execute (α := ℕ) ⟨.CLOSED, 1, 0, 0, 3, 2, 60000⟩ 100 200
            (.error (.other "Error" "boom"))).breaker.nextAttemptTime = 0) ∧
      (3 ≤ 1 + 1 →
        (CircuitBreaker.execute (α := ℕ) ⟨.CLOSED, 1, 0, 0, 3, 2, 60000⟩ 100 200
            (.error (.other "Error" "boom"))).breaker.state = .OPEN ∧
        (CircuitBreaker.execute (α := ℕ) ⟨.CLOSED, 1, 0, 0, 3, 2, 60000⟩ 100 200
            (.error (.other "Error" "boom"))).breaker.nextAttemptTime
          = 200 + 60000)) ∧
    CircuitBreaker.execute (α := ℕ) ⟨.CLOSED, 1, 0, 0, 3, 2, 60000⟩ 100 200
        (.ok 7)
      = ⟨.ok 7, ⟨.CLOSED, 0, 0, 0, 3, 2, 60000⟩, true⟩ :=
  claim_C6_closed_transitions ⟨.CLOSED, 1, 0, 0, 3, 2, 60000⟩ 100 200
    (.other "Error" "boom") 7 rfl

/-- C9: `getState()` reports `HALF_OPEN` whenever the stored tag is `OPEN`
but the timeout has elapsed (`now ≥ nextAttemptTime`), and reports the
stored tag in every other situation. -/
theorem claim_C9_getState_logical (cb : CircuitBreaker) (now : ℤ) :
    (cb.state = .OPEN → cb.nextAttemptTime ≤ now →
      cb.getState now = .HALF_OPEN) ∧
    (¬(cb.state = .OPEN ∧ cb.nextAttemptTime ≤ now) →
      cb.getState now = cb.state) := by
  unfold CircuitBreaker.getState
  constructor
  · intro h1 h2; rw [if_pos ⟨h1, h2⟩]
  · intro h; rw [if_neg h]

/-- Witness for C9: a nominally `OPEN` breaker past its timeout reads as
`HALF_OPEN`; a `CLOSED` breaker reads as `CLOSED`. -/
theorem claim_C9_getState_logical_witness :
    CircuitBreaker.getState ⟨.OPEN, 2, 0, 5000, 2, 2, 5000⟩ 6000 = .HALF_OPEN ∧
    CircuitBreaker.getState ⟨.CLOSED, 0, 0, 0, 2, 2, 5000⟩ 6000 = .CLOSED :=
  ⟨(claim_C9_getState_logical ⟨.OPEN, 2, 0, 5000, 2, 2, 5000⟩ 6000).1 rfl
      (by decide),
   (claim_C9_getState_logical ⟨.CLOSED, 0, 0, 0, 2, 2, 5000⟩ 6000).2
      (by simp)⟩

/-- C1 (code bug): a reachable run in which a failure in `HALF_OPEN` does
*not* transition the breaker back to `OPEN`.  With
`failureThreshold = successThreshold = 2`, `timeout = 5000`: two failures
open the circuit (`nextAttemptTime = 5001`); after the timeout a successful
trial call moves it to `HALF_OPEN` with one recorded success — and resets
`failureCount` to `0` (`onSuccess` does this in every state); the next
failing trial call then only raises `failureCount` to `1 < 2`, so
`onFailure` leaves the state `HALF_OPEN` and `openedUntil` stale, where the
claim (and the source's own test, "should reopen circuit on failure in
HALF_OPEN") requires an immediate transition back to `OPEN` with a fresh
`openedUntil`. -/
theorem claim_C1_halfopen_failure_keeps_halfopen :
    (((((CircuitBreaker.mk' 2 2 5000).execute 0 0
          (.error (.other "Error" "fail") : Except JsError ℕ)).breaker.execute
            1 1 (.error (.other "Error" "fail") : Except JsError ℕ)).breaker.execute
            6000 6000 (.ok 0 : Except JsError ℕ)).breaker.execute
            6001 6001 (.error (.other "Error" "fail") : Except JsError ℕ)).breaker.state
        = .HALF_OPEN ∧
    ((((CircuitBreaker.mk' 2 2 5000).execute 0 0
          (.error (.other "Error" "fail") : Except JsError ℕ)).breaker.execute
            1 1 (.error (.other "Error" "fail") : Except JsError ℕ)).breaker.execute
            6000 6000 (.ok 0 : Except JsError ℕ)).breaker
        = ⟨.HALF_OPEN, 0, 1, 5001, 2, 2, 5000⟩ ∧
    (((((CircuitBreaker.mk' 2 2 5000).execute 0 0
          (.error (.other "Error" "fail") : Except JsError ℕ)).breaker.execute
            1 1 (.error (.other "Error" "fail") : Except JsError ℕ)).breaker.execute
            6000 6000 (.ok 0 : Except JsError ℕ)).breaker.execute
            6001 6001 (.error (.other "Error" "fail") : Except JsError ℕ)).breaker
        = ⟨.HALF_OPEN, 1, 0, 5001, 2, 2, 5000⟩ := by
  decide

/-! ## Claims about the rate limiter -/

/-- Refilling preserves the bucket invariant and the configuration fields. -/
theorem refillTokens_inv (rl : RateLimiter) (now : ℤ)
    (h0 : 0 ≤ rl.tokens) (h1 : rl.tokens ≤ rl.burstAllowance) :
    0 ≤ (rl.refillTokens now).tokens ∧
      (rl.refillTokens now).tokens ≤ (rl.refillTokens now).burstAllowance ∧
      (rl.refillTokens now).burstAllowance = rl.burstAllowance ∧
      (rl.refillTokens now).refillRate = rl.refillRate := by
  unfold RateLimiter.refillTokens
  by_cases h : 0 < ((now : ℚ) - (rl.lastRefillTime : ℚ)) * rl.refillRate
  · rw [if_pos h]
    refine ⟨?_, ?_, rfl, rfl⟩
    · exact le_min (le_trans h0 h1) (by linarith)
    · exact min_le_left _ _
  · rw [if_neg h]
    exact ⟨h0, h1, rfl, rfl⟩

/-- One limiter operation preserves the bucket invariant and the
configuration fields. -/
theorem step_inv (rl : RateLimiter) (op : ℤ × RateLimiter.Op)
    (h0 : 0 ≤ rl.tokens) (h1 : rl.tokens ≤ rl.burstAllowance) :
    0 ≤ (rl.step op).tokens ∧
      (rl.step op).tokens ≤ (rl.step op).burstAllowance ∧
      (rl.step op).burstAllowance = rl.burstAllowance := by
  obtain ⟨now, o⟩ := op
  have hr := refillTokens_inv rl now h0 h1
  cases o with
  | check =>
    by_cases h : (rl.refillTokens now).tokens < 1
    · have hq : rl.step (now, .check) = rl.refillTokens now := by
        simp [RateLimiter.step, RateLimiter.checkLimit, h]
      rw [hq]
      exact ⟨hr.1, hr.2.1, hr.2.2.1⟩
    · have hq : rl.step (now, .check) =
          { rl.refillTokens now with
              tokens := (rl.refillTokens now).tokens - 1 } := by
        simp [RateLimiter.step, RateLimiter.checkLimit, h]
      rw [hq]
      push_neg at h
      have hb := hr.2.1
      refine ⟨?_, ?_, hr.2.2.1⟩
      · show (0 : ℚ) ≤ (rl.refillTokens now).tokens - 1
        linarith
      · show (rl.refillTokens now).tokens - 1
            ≤ (rl.refillTokens now).burstAllowance
        linarith
  | getTokens =>
    exact ⟨hr.1, hr.2.1, hr.2.2.1⟩
  | reset =>
    have hb : 0 ≤ rl.burstAllowance := le_trans h0 h1
    exact ⟨hb, le_refl _, rfl⟩

/-- Running any operation sequence from a state satisfying the invariant
keeps the invariant, and never changes the capacity. -/
theorem run_inv (ops : List (ℤ × RateLimiter.Op)) (rl : RateLimiter)
    (h0 : 0 ≤ rl.tokens) (h1 : rl.tokens ≤ rl.burstAllowance) :
    0 ≤ (rl.run ops).tokens ∧
      (rl.run ops).tokens ≤ (rl.run ops).burstAllowance ∧
      (rl.run ops).burstAllowance = rl.burstAllowance := by
  induction ops generalizing rl with
  | nil => exact ⟨h0, h1, rfl⟩
  | cons op ops ih =>
    have hs := step_inv rl op h0 h1
    have hrec := ih (rl.step op) hs.1 hs.2.1
    exact ⟨hrec.1, hrec.2.1, hrec.2.2.trans hs.2.2⟩

/-- C2: for every operation sequence (`checkLimit`, `getAvailableTokens`,
`reset`) and every pattern of elapsed time between the operations, the
invariant `0 ≤ tokens ≤ capacity` holds after each operation, where the
capacity is `burstAllowance` (defaulting to `maxRequestsPerMinute`); the
statement quantifies over all sequences, hence covers every intermediate
observation point (every prefix is itself a sequence). -/
theorem claim_C2_bucket_invariant (cfg : RateLimiterConfig) (t0 : ℤ)
    (hcap : 0 ≤ cfg.burstAllowance.getD cfg.maxRequestsPerMinute)
    (ops : List (ℤ × RateLimiter.Op)) :
    0 ≤ ((RateLimiter.mk' cfg t0).run ops).tokens ∧
      ((RateLimiter.mk' cfg t0).run ops).tokens
        ≤ cfg.burstAllowance.getD cfg.maxRequestsPerMinute := by
  have h := run_inv ops (RateLimiter.mk' cfg t0) hcap (le_refl _)
  have hb : ((RateLimiter.mk' cfg t0).run ops).burstAllowance
      = cfg.burstAllowance.getD cfg.maxRequestsPerMinute := h.2.2
  exact ⟨h.1, hb ▸ h.2.1⟩

/-- Witness for C2: the default configuration (60 requests/minute, no burst
override) run through a concrete mixed sequence of operations. -/
theorem claim_C2_bucket_invariant_witness :
    0 ≤ ((RateLimiter.mk' ⟨60, none⟩ 0).run
        [(0, .check), (1000, .check), (500000, .getTokens), (600000, .reset),
          (600001, .check), (600001, .check)]).tokens ∧
      ((RateLimiter.mk' ⟨60, none⟩ 0).run
        [(0, .check), (1000, .check), (500000, .getTokens), (600000, .reset),
          (600001, .check), (600001, .check)]).tokens
        ≤ (Option.none).getD (60 : ℚ) :=
  claim_C2_bucket_invariant ⟨60, none⟩ 0 (by decide)
    [(0, .check), (1000, .check), (500000, .getTokens), (600000, .reset),
      (600001, .check), (600001, .check)]

/-- C8: `checkLimit()` first lazily refills; if the refilled token count is
below 1 it fails with a `RateLimitError` carrying
`ceil((1 - tokens) / refillRate)` milliseconds and leaves the token count
unchanged; otherwise it consumes exactly one token and succeeds. -/
theorem claim_C8_checkLimit (rl : RateLimiter) (now : ℤ) :
    ((rl.refillTokens now).tokens < 1 →
      rl.checkLimit now =
        (.error (.rateLimit
            (RateLimiter.limitMessage
              ⌈(1 - (rl.refillTokens now).tokens) / (rl.refillTokens now).refillRate⌉)
            ⌈(1 - (rl.refillTokens now).tokens) / (rl.refillTokens now).refillRate⌉),
          rl.refillTokens now)) ∧
    (1 ≤ (rl.refillTokens now).tokens →
      rl.checkLimit now =
        (.ok (),
          { rl.refillTokens now with
              tokens := (rl.refillTokens now).tokens - 1 })) := by
  constructor
  · intro h
    unfold RateLimiter.checkLimit
    rw [if_pos h]
  · intro h
    unfold RateLimiter.checkLimit
    rw [if_neg (not_lt.mpr h)]

/-- Witness for C8: a depleted limiter (half a token, rate 1/1000 per ms)
fails with `retryAfterMs = 500` and keeps its tokens; a charged limiter
consumes exactly one token. -/
theorem claim_C8_checkLimit_witness :
    RateLimiter.checkLimit ⟨1/2, 1/1000, 0, 60⟩ 0 =
      (.error (.rateLimit (RateLimiter.limitMessage 500) 500),
        ⟨1/2, 1/1000, 0, 60⟩) ∧
    RateLimiter.checkLimit ⟨5, 1/1000, 0, 60⟩ 0 = (.ok (), ⟨4, 1/1000, 0, 60⟩) := by
  have h1 := (claim_C8_checkLimit ⟨1/2, 1/1000, 0, 60⟩ 0).1 (by norm_num [RateLimiter.refillTokens])
  have h2 := (claim_C8_checkLimit ⟨5, 1/1000, 0, 60⟩ 0).2 (by norm_num [RateLimiter.refillTokens])
  constructor
  · rw [h1]
    norm_num [RateLimiter.refillTokens]
  · rw [h2]
    norm_num [RateLimiter.refillTokens]

/-! ## Claims about the retry wrapper -/

namespace SecureGraphClient

/-- The fuel argument of `executeWithRetryAux` is irrelevant as long as it
equals `maxRetries - attempt`; this equation recovers the recursion exactly
as `executeWithRetry` is written in the source. -/
theorem executeWithRetry_eq {α : Type} (maxRetries : ℕ) (base : ℚ)
    (fn : ℕ → Except JsError α) (rand : ℕ → ℚ) (attempt : ℕ) :
    executeWithRetry maxRetries base fn rand attempt =
      match fn attempt with
      | .ok v => ⟨1, [], .ok v⟩
      | .error e =>
        if ¬ isTransientError e then ⟨1, [], .error e⟩
        else if maxRetries ≤ attempt then ⟨1, [], .error e⟩
        else
          ⟨(executeWithRetry maxRetries base fn rand (attempt + 1)).attempts + 1,
            retryDelay base rand attempt ::
              (executeWithRetry maxRetries base fn rand (attempt + 1)).delays,
            (executeWithRetry maxRetries base fn rand (attempt + 1)).result⟩ := by
  unfold executeWithRetry
  cases hfn : fn attempt with
  | ok v => unfold executeWithRetryAux; rw [hfn]
  | error e =>
    by_cases htr : isTransientError e
    · by_cases hle : maxRetries ≤ attempt
      · rw [Nat.sub_eq_zero_of_le hle]
        unfold executeWithRetryAux
        rw [hfn]
        simp [htr, hle]
      · have hf : maxRetries - attempt = (maxRetries - (attempt + 1)) + 1 := by
          omega
        rw [hf]
        conv_lhs => unfold executeWithRetryAux
        rw [hfn]
    · unfold executeWithRetryAux
      rw [hfn]
      simp [htr]

/-- The attempt count of any run is at most `fuel + 1`. -/
theorem executeWithRetryAux_attempts_le {α : Type} (maxRetries : ℕ) (base : ℚ)
    (fn : ℕ → Except JsError α) (rand : ℕ → ℚ) (fuel attempt : ℕ) :
    (executeWithRetryAux maxRetries base fn rand fuel attempt).attempts
      ≤ fuel + 1 := by
  induction fuel generalizing attempt with
  | zero =>
    unfold executeWithRetryAux
    cases fn attempt with
    | ok v => simp
    | error e =>
      by_cases h1 : isTransientError e
      · by_cases h2 : maxRetries ≤ attempt
        · simp [h1, h2]
        · simp [h1, h2]
      · simp [h1]
  | succ fuel ih =>
    unfold executeWithRetryAux
    cases fn attempt with
    | ok v => simp
    | error e =>
      by_cases h1 : isTransientError e
      · by_cases h2 : maxRetries ≤ attempt
        · simp [h1, h2]
        · simp only [h1, not_true_eq_false, if_false, h2]
          exact Nat.succ_le_succ (ih (attempt + 1))
      · simp [h1]

/-- An always-transiently-failing operation, entered at `attempt` with
`maxRetries - attempt = n`, is attempted exactly `n + 1` times, sleeps the
exponential-backoff delays of attempts `attempt, …, attempt + n - 1`, and
surfaces the last error. -/
theorem retry_allfail {α : Type} (maxRetries : ℕ) (base : ℚ)
    (fn : ℕ → Except JsError α) (rand : ℕ → ℚ) (errOf : ℕ → JsError)
    (hfn : ∀ k, fn k = .error (errOf k))
    (htr : ∀ k, isTransientError (errOf k) = true) :
    ∀ n attempt, maxRetries - attempt = n →
      executeWithRetry maxRetries base fn rand attempt =
        ⟨n + 1, (List.range n).map (fun i => retryDelay base rand (attempt + i)),
          .error (errOf (attempt + n))⟩ := by
  intro n
  induction n with
  | zero =>
    intro attempt hn
    rw [executeWithRetry_eq, hfn attempt]
    simp only [htr attempt, not_true_eq_false, if_false]
    have hle : maxRetries ≤ attempt := by omega
    simp [hle]
  | succ n ih =>
    intro attempt hn
    have hlt : ¬ maxRetries ≤ attempt := by omega
    rw [executeWithRetry_eq, hfn attempt]
    simp only [htr attempt, not_true_eq_false, if_false, hlt]
    rw [ih (attempt + 1) (by omega)]
    have harg : attempt + 1 + n = attempt + (n + 1) := by omega
    have hdelays : retryDelay base rand attempt ::
        (List.range n).map (fun i => retryDelay base rand (attempt + 1 + i))
        = (List.range (n + 1)).map (fun i => retryDelay base rand (attempt + i)) := by
      have hh2 : (List.range n).map
            ((fun i => retryDelay base rand (attempt + i)) ∘ Nat.succ)
          = (List.range n).map (fun i => retryDelay base rand (attempt + 1 + i)) := by
        apply List.map_congr_left
        intro i _
        simp only [Function.comp_apply]
        congr 1
        omega
      rw [List.range_succ_eq_map, List.map_cons, List.map_map, hh2]
      simp
    rw [harg, hdelays]

end SecureGraphClient

/-- C7: the retry wrapper always terminates — at most `maxRetries + 1`
attempts for any behaviour of the wrapped operation; an operation that
always fails transiently is attempted exactly `maxRetries + 1` times with
the exponential-backoff delays `floor(base·2^k·(1 + 0.3·rand k))` and then
the last error surfaces; an `AuthenticationError` is never retried and
surfaces after exactly one attempt. -/
theorem claim_C7_retry_terminates {α : Type} (maxRetries : ℕ) (base : ℚ)
    (rand : ℕ → ℚ) :
    (∀ (fn : ℕ → Except JsError α) (errOf : ℕ → JsError),
      (∀ k, fn k = .error (errOf k)) →
      (∀ k, SecureGraphClient.isTransientError (errOf k) = true) →
      SecureGraphClient.executeWithRetry maxRetries base fn rand 0 =
        ⟨maxRetries + 1,
          (List.range maxRetries).map (SecureGraphClient.retryDelay base rand),
          .error (errOf maxRetries)⟩) ∧
    (∀ (fn : ℕ → Except JsError α) (m : String),
      fn 0 = .error (.authentication m) →
      SecureGraphClient.executeWithRetry maxRetries base fn rand 0 =
        ⟨1, [], .error (.authentication m)⟩) ∧
    (∀ fn : ℕ → Except JsError α,
      (SecureGraphClient.executeWithRetry maxRetries base fn rand 0).attempts
        ≤ maxRetries + 1) := by
  refine ⟨?_, ?_, ?_⟩
  · intro fn errOf hfn htr
    have h := SecureGraphClient.retry_allfail maxRetries base fn rand errOf hfn
      htr maxRetries 0 (by omega)
    rw [h]
    simp
  · intro fn m hfn
    rw [SecureGraphClient.executeWithRetry_eq, hfn]
    simp [SecureGraphClient.isTransientError]
  · intro fn
    have h := SecureGraphClient.executeWithRetryAux_attempts_le maxRetries base
      fn rand (maxRetries - 0) 0
    unfold SecureGraphClient.executeWithRetry
    omega

/-- Witness for C7: an endpoint that always answers 503 (whose
`handleResponse` error is the transient "temporarily unavailable"
`GraphAPIError`), `maxRetries = 3`, `baseRetryDelayMs = 1000`, zero jitter:
exactly 4 attempts, delays 1000/2000/4000, the 503 error surfaces; an
authentication failure surfaces after one attempt with no delays. -/
theorem claim_C7_retry_terminates_witness :
    SecureGraphClient.executeWithRetry (α := ℕ) 3 1000
        (fun _ => .error (SecureGraphClient.handleResponseError 503))
        (fun _ => 0) 0 =
      ⟨4, (List.range 3).map (SecureGraphClient.retryDelay 1000 (fun _ => 0)),
        .error (SecureGraphClient.handleResponseError 503)⟩ ∧
    SecureGraphClient.executeWithRetry (α := ℕ) 3 1000
        (fun _ => .error (.authentication "Authentication token invalid or expired"))
        (fun _ => 0) 0 =
      ⟨1, [], .error (.authentication "Authentication token invalid or expired")⟩ ∧
    (List.range 3).map (SecureGraphClient.retryDelay 1000 (fun _ => 0))
      = [1000, 2000, 4000] := by
  have htr : SecureGraphClient.isTransientError
      (SecureGraphClient.handleResponseError 503) = true := by decide
  refine ⟨?_, ?_, ?_⟩
  · exact (claim_C7_retry_terminates 3 1000 (fun _ => 0)).1
      (fun _ => .error (SecureGraphClient.handleResponseError 503))
      (fun _ => SecureGraphClient.handleResponseError 503)
      (fun k => rfl) (fun k => htr)
  · exact (claim_C7_retry_terminates 3 1000 (fun _ => 0)).2.1
      (fun _ => .error (.authentication "Authentication token invalid or expired"))
      "Authentication token invalid or expired" rfl
  · show (List.range 3).map (SecureGraphClient.retryDelay 1000 (fun _ => 0))
        = [1000, 2000, 4000]
    norm_num [List.range_succ, SecureGraphClient.retryDelay]

/-! ## Claims about the error sanitizer -/

/-- C4 counterexample: `sanitizeError` copies `error.message` verbatim, so
an internal file path embedded in the *message* of an error (here one that
also carries a stack trace) appears in the serialized sanitized output,
contradicting the claim that the output never contains the path substring. -/
theorem claim_C4_counterexample :
    StrScan.containsSubstr "/app/src/auth/token-manager.ts"
      (Sanitizers.serializeSanitized (Sanitizers.sanitizeError
        (.error "Error" "ENOENT: no such file, open /app/src/auth/token-manager.ts"
          (some "Error: ENOENT\n    at /app/src/auth/token-manager.ts:10:5"))))
      = true ∧
    Sanitizers.sanitizeError
        (.error "Error" "ENOENT: no such file, open /app/src/auth/token-manager.ts"
          (some "Error: ENOENT\n    at /app/src/auth/token-manager.ts:10:5"))
      = ⟨"ENOENT: no such file, open /app/src/auth/token-manager.ts", none⟩ := by
  constructor
  · decide
  · decide

/-- C4 amended: the exact mapping of `sanitizeError` (an `Error` maps to
`{error: message, code: name}` with `code` omitted exactly when the name is
the generic `"Error"`; any non-`Error` value maps to the fixed generic
message), plus the no-leak guarantee that actually holds: the serialized
output is built only from fixed JSON scaffolding, the error's `message` and
its `name` — in particular nothing from the stack trace (and no
`retryAfterMs` field) can appear.  Formally: any quote-free pattern absent
from `message`, from `name` and from the three scaffolding fragments is
absent from the serialized output, for every stack. -/
theorem claim_C4_sanitizeError_spec :
    (∀ name message stack, Sanitizers.sanitizeError (.error name message stack)
        = ⟨message, if name = "Error" then none else some name⟩) ∧
    (∀ v, Sanitizers.sanitizeError (.nonError v)
        = ⟨"An unexpected error occurred", none⟩) ∧
    (∀ name message stack (p : String),
      '"' ∉ p.data →
      StrScan.containsSubstr p message = false →
      StrScan.containsSubstr p name = false →
      StrScan.containsSubstr p "\x7b\"error\":\"" = false →
      StrScan.containsSubstr p "\",\"code\":\"" = false →
      StrScan.containsSubstr p "\"\x7d" = false →
      StrScan.containsSubstr p
        (Sanitizers.serializeSanitized
          (Sanitizers.sanitizeError (.error name message stack))) = false) := by
  refine ⟨?_, fun v => rfl, ?_⟩
  · intro name message stack
    unfold Sanitizers.sanitizeError
    by_cases h : name = "Error" <;> simp [h]
  · intro name message stack p hq hm hn hs1 hs2 hs3
    unfold StrScan.containsSubstr at hm hn hs1 hs2 hs3
    by_contra hcon
    rw [Bool.not_eq_false] at hcon
    unfold StrScan.containsSubstr at hcon
    have hA : ("\x7b\"error\":\"").data = ("\x7b\"error\":").data ++ ['"'] := by
      decide
    have hB : ("\",\"code\":\"").data = ("\",\"code\":").data ++ ['"'] := by decide
    have hBh : ("\",\"code\":\"").data = '"' :: (",\"code\":\"").data := by decide
    have hC : ("\"\x7d").data = '"' :: ("\x7d").data := by decide
    by_cases h : name = "Error"
    · have hser : Sanitizers.sanitizeError (.error name message stack)
          = ⟨message, none⟩ := by simp [Sanitizers.sanitizeError, h]
      rw [hser] at hcon
      have hdata : (Sanitizers.serializeSanitized ⟨message, none⟩).data
          = ("\x7b\"error\":\"").data ++ (message.data ++ ("\"\x7d").data) := by
        show (("\x7b\"error\":\"" ++ message ++ "\"\x7d") : String).data = _
        rw [str_data_append, str_data_append, List.append_assoc]
      rw [hdata, hA] at hcon
      rcases StrScan.containsSubstrL_append_elim_left p.data _ _ '"' hq hcon
        with h1 | h1
      · rw [← hA] at h1
        rw [h1] at hs1
        exact absurd hs1 (by decide)
      · rw [hC] at h1
        rcases StrScan.containsSubstrL_append_elim_right p.data _ _ '"' hq h1
          with h2 | h2
        · rw [h2] at hm
          exact absurd hm (by decide)
        · rw [← hC] at h2
          rw [h2] at hs3
          exact absurd hs3 (by decide)
    · have hser : Sanitizers.sanitizeError (.error name message stack)
          = ⟨message, some name⟩ := by simp [Sanitizers.sanitizeError, h]
      rw [hser] at hcon
      have hdata : (Sanitizers.serializeSanitized ⟨message, some name⟩).data
          = ("\x7b\"error\":\"").data ++ (message.data ++ (("\",\"code\":\"").data
              ++ (name.data ++ ("\"\x7d").data))) := by
        show (("\x7b\"error\":\"" ++ message ++ "\",\"code\":\"" ++ name
            ++ "\"\x7d") : String).data = _
        rw [str_data_append, str_data_append, str_data_append, str_data_append,
          List.append_assoc, List.append_assoc, List.append_assoc]
      rw [hdata, hA] at hcon
      rcases StrScan.containsSubstrL_append_elim_left p.data _ _ '"' hq hcon
        with h1 | h1
      · rw [← hA] at h1
        rw [h1] at hs1
        exact absurd hs1 (by decide)
      · rw [hBh, List.cons_append] at h1
        rcases StrScan.containsSubstrL_append_elim_right p.data _ _ '"' hq h1
          with h2 | h2
        · rw [h2] at hm
          exact absurd hm (by decide)
        · rw [← List.cons_append] at h2
          have heq : ('"' :: (",\"code\":\"").data)
              = ("\",\"code\":").data ++ ['"'] := by decide
          rw [heq] at h2
          rcases StrScan.containsSubstrL_append_elim_left p.data _ _ '"' hq h2
            with h3 | h3
          · rw [← hB] at h3
            rw [h3] at hs2
            exact absurd hs2 (by decide)
          · rw [hC] at h3
            rcases StrScan.containsSubstrL_append_elim_right p.data _ _ '"' hq h3
              with h4 | h4
            · rw [h4] at hn
              exact absurd hn (by decide)
            · rw [← hC] at h4
              rw [h4] at hs3
              exact absurd hs3 (by decide)

/-- Witness for C4 at the specification's own probe: a generic error whose
stack carries an internal file path; the sanitized output is
`{error: "Test error"}` and its serialization contains neither `"stack"`
nor `"retryAfterMs"` nor the path from the stack. -/
theorem claim_C4_sanitizeError_spec_witness :
    Sanitizers.sanitizeError
        (.error "Error" "Test error" (some "Error: Test error\n    at /app/src/index.ts:1:1"))
      = ⟨"Test error", none⟩ ∧
    StrScan.containsSubstr "stack"
      (Sanitizers.serializeSanitized (Sanitizers.sanitizeError
        (.error "Error" "Test error"
          (some "Error: Test error\n    at /app/src/index.ts:1:1")))) = false ∧
    StrScan.containsSubstr "retryAfterMs"
      (Sanitizers.serializeSanitized (Sanitizers.sanitizeError
        (.error "Error" "Test error"
          (some "Error: Test error\n    at /app/src/index.ts:1:1")))) = false ∧
    StrScan.containsSubstr "/app/src/index.ts"
      (Sanitizers.serializeSanitized (Sanitizers.sanitizeError
        (.error "Error" "Test error"
          (some "Error: Test error\n    at /app/src/index.ts:1:1")))) = false := by
  refine ⟨?_, ?_, ?_, ?_⟩
  · have h := claim_C4_sanitizeError_spec.1 "Error" "Test error"
      (some "Error: Test error\n    at /app/src/index.ts:1:1")
    simpa using h
  · exact claim_C4_sanitizeError_spec.2.2 "Error" "Test error"
      (some "Error: Test error\n    at /app/src/index.ts:1:1") "stack"
      (by decide) (by decide) (by decide) (by decide) (by decide) (by decide)
  · exact claim_C4_sanitizeError_spec.2.2 "Error" "Test error"
      (some "Error: Test error\n    at /app/src/index.ts:1:1") "retryAfterMs"
      (by decide) (by decide) (by decide) (by decide) (by decide) (by decide)
  · exact claim_C4_sanitizeError_spec.2.2 "Error" "Test error"
      (some "Error: Test error\n    at /app/src/index.ts:1:1") "/app/src/index.ts"
      (by decide) (by decide) (by decide) (by decide) (by decide) (by decide)

/-! ## Claim about the calendar date-string validator -/

/-- C10: for every input string that parses to a calendar date, the
validator rejects dates more than 5 years before or after the current date
with a `ValidationError` naming the field, and accepts (returning the parsed
date) every date within that window.  "5 years before/after" is the
source's `setFullYear(year ∓ 5)` bound, i.e. the same calendar position
with the year shifted. -/
theorem claim_C10_validateDateString (parse : String → Option DateVal.JSDate)
    (now d : DateVal.JSDate) (s fieldName : String)
    (hne : s ≠ "")
    (hnull : (String.mk (Validators.jsTrim s.data)).data.any
        (fun c => c = Char.ofNat 0) = false)
    (hp : parse (String.mk (Validators.jsTrim s.data)) = some d) :
    (DateVal.JSDate.lt d (now.setFullYear (now.year - 5)) = true ∨
        DateVal.JSDate.lt (now.setFullYear (now.year + 5)) d = true →
      DateVal.validateDateString parse now s fieldName =
        .error (.validation (fieldName ++ " must be within 5 years of today"))) ∧
    (DateVal.JSDate.lt d (now.setFullYear (now.year - 5)) = false →
      DateVal.JSDate.lt (now.setFullYear (now.year + 5)) d = false →
      DateVal.validateDateString parse now s fieldName = .ok d) := by
  constructor
  · intro h
    unfold DateVal.validateDateString
    rw [if_neg hne]
    simp only [hnull, Bool.false_eq_true, if_false, hp]
    have : (DateVal.JSDate.lt d (now.setFullYear (now.year - 5)) ||
        DateVal.JSDate.lt (now.setFullYear (now.year + 5)) d) = true := by
      rcases h with h | h <;> simp [h]
    simp [this]
  · intro h1 h2
    unfold DateVal.validateDateString
    rw [if_neg hne]
    simp only [hnull, Bool.false_eq_true, if_false, hp]
    simp [h1, h2]

/-- Witness for C10: with `now` at calendar position (2026, offset 100), the
date (2030, 0) — within the window — is accepted and returned, and the date
(1999, 0) — more than 5 years in the past — is rejected naming the field. -/
theorem claim_C10_validateDateString_witness :
    DateVal.validateDateString
        (fun s => if s = "2030-06-01" then some ⟨2030, 0⟩ else none)
        ⟨2026, 100⟩ "2030-06-01" "startDate" = .ok ⟨2030, 0⟩ ∧
    DateVal.validateDateString
        (fun s => if s = "1999-01-01" then some ⟨1999, 0⟩ else none)
        ⟨2026, 100⟩ "1999-01-01" "startDate" =
      .error (.validation "startDate must be within 5 years of today") := by
  constructor
  · exact (claim_C10_validateDateString
      (fun s => if s = "2030-06-01" then some ⟨2030, 0⟩ else none)
      ⟨2026, 100⟩ ⟨2030, 0⟩ "2030-06-01" "startDate"
      (by decide) (by decide) (by decide)).2 (by decide) (by decide)
  · exact (claim_C10_validateDateString
      (fun s => if s = "1999-01-01" then some ⟨1999, 0⟩ else none)
      ⟨2026, 100⟩ ⟨1999, 0⟩ "1999-01-01" "startDate"
      (by decide) (by decide) (by decide)).1 (Or.inl (by decide))

/-! ## Claims about the OData filter validator

The proofs below characterise the scanners of `validateODataFilter` on
rendered grammar filters.  They begin with a kit of character-level facts
(`Char.toLower` is analysed through `Char.toNat`). -/

namespace Validators

/-- `Char.ofNat` of a valid scalar value has that value. -/
theorem char_toNat_ofNat (n : ℕ) (h1 : n < 55296) : (Char.ofNat n).toNat = n := by
  unfold Char.ofNat
  rw [dif_pos (Or.inl h1)]
  rfl

/-- Lowercasing an ASCII uppercase letter adds 32 to its scalar value. -/
theorem toLower_toNat_of_upper (c : Char) (h1 : 65 ≤ c.toNat) (h2 : c.toNat ≤ 90) :
    (c.toLower).toNat = c.toNat + 32 := by
  unfold Char.toLower
  simp only []
  rw [if_pos ⟨h1, h2⟩]
  exact char_toNat_ofNat _ (by omega)

/-- Lowercasing fixes everything that is not an ASCII uppercase letter. -/
theorem toLower_of_not_upper (c : Char) (h : ¬(65 ≤ c.toNat ∧ c.toNat ≤ 90)) :
    c.toLower = c := by
  unfold Char.toLower
  simp only []
  rw [if_neg h]

/-- If lowercasing yields something outside the lowercase-letter range, the
character was already equal to it. -/
theorem toLower_eq_nonletter {c x : Char}
    (hx2 : ¬(97 ≤ x.toNat ∧ x.toNat ≤ 122)) (h : c.toLower = x) : c = x := by
  by_cases hup : 65 ≤ c.toNat ∧ c.toNat ≤ 90
  · exfalso
    have := toLower_toNat_of_upper c hup.1 hup.2
    rw [h] at this
    omega
  · rw [← h]
    exact (toLower_of_not_upper c hup).symm

/-- A `\w` character is not a `\s` character. -/
theorem word_not_space (c : Char) (hw : isWordChar c = true) :
    isSpaceChar c = false := by
  by_contra h
  rw [Bool.not_eq_false] at h
  unfold isSpaceChar at h
  simp only [Bool.or_eq_true, decide_eq_true_eq] at h
  rcases h with ((((rfl | rfl) | rfl) | rfl) | rfl) | rfl <;>
    exact absurd hw (by decide)

/-- Letters and digits are `\w` characters. -/
theorem alnum_word (c : Char) (h : FilterGrammar.isAlphaNumChar c = true) :
    isWordChar c = true := by
  unfold FilterGrammar.isAlphaNumChar at h
  unfold isWordChar
  simp only [Bool.or_eq_true] at h ⊢
  tauto

end Validators

namespace Validators

/-- `takeWordRun` passes over a fully-`\w` prefix. -/
theorem takeWordRun_word_append (t r : List Char)
    (hw : ∀ c ∈ t, isWordChar c = true) :
    takeWordRun (t ++ r) = (t ++ (takeWordRun r).1, (takeWordRun r).2) := by
  induction t with
  | nil => simp
  | cons a t ih =>
    have ha : isWordChar a = true := hw a (by simp)
    simp only [List.cons_append, takeWordRun, ha, if_true, List.append_eq]
    rw [ih (fun c hc => hw c (by simp [hc]))]

/-- `takeWordRun` stops at a non-`\w` head. -/
theorem takeWordRun_nonword (c : Char) (r : List Char)
    (h : isWordChar c = false) : takeWordRun (c :: r) = ([], c :: r) := by
  simp [takeWordRun, h]

/-- `takeWordRun` of a `\w` token followed by a non-`\w` character. -/
theorem takeWordRun_token (t : List Char) (d : Char) (r : List Char)
    (hw : ∀ c ∈ t, isWordChar c = true) (hd : isWordChar d = false) :
    takeWordRun (t ++ d :: r) = (t, d :: r) := by
  rw [takeWordRun_word_append t (d :: r) hw, takeWordRun_nonword d r hd]
  simp

/-- `takeSpaceRun` stops at a non-`\s` head. -/
theorem takeSpaceRun_nonspace (c : Char) (r : List Char)
    (h : isSpaceChar c = false) : takeSpaceRun (c :: r) = ([], c :: r) := by
  simp [takeSpaceRun, h]

/-- `takeSpaceRun` of a single space followed by a non-`\s` character. -/
theorem takeSpaceRun_single (d : Char) (ds : List Char)
    (hd : isSpaceChar d = false) :
    takeSpaceRun (' ' :: d :: ds) = ([' '], d :: ds) := by
  have hsp : isSpaceChar ' ' = true := by decide
  simp [takeSpaceRun, hsp, hd]

/-- The first two characters determine `cmpOpAt`. -/
theorem cmpOpAt_first2 (a b : Char) (r : List Char) :
    cmpOpAt (a :: b :: r) = cmpOpAt [a, b] := rfl

/-- `cmpOpAt` holds at each of the six comparison alternatives. -/
theorem cmpOpAt_of_six (c : List Char) (hc : c ∈ FilterGrammar.sixAlts)
    (r : List Char) : cmpOpAt (c ++ r) = true := by
  unfold FilterGrammar.sixAlts at hc
  simp only [List.mem_cons, List.not_mem_nil, or_false] at hc
  rcases hc with rfl | rfl | rfl | rfl | rfl | rfl <;>
    simp only [List.cons_append, List.nil_append, cmpOpAt_first2] <;> decide

/-- `cmpOpAt` fails when the second character is a space. -/
theorem cmpOpAt_pair_space (a : Char) (ds : List Char) :
    cmpOpAt (a :: ' ' :: ds) = false := by
  unfold cmpOpAt
  have h : Char.toLower ' ' = ' ' := by decide
  simp [h]

/-- A comparison alternative is two characters long and starts with a
non-`\s` character. -/
theorem sixAlts_shape (c : List Char) (hc : c ∈ FilterGrammar.sixAlts) :
    ∃ a b, c = [a, b] ∧ isSpaceChar a = false ∧ isWordChar a = true ∧
      isWordChar b = true := by
  unfold FilterGrammar.sixAlts at hc
  simp only [List.mem_cons, List.not_mem_nil, or_false] at hc
  rcases hc with rfl | rfl | rfl | rfl | rfl | rfl <;>
    exact ⟨_, _, rfl, by decide, by decide, by decide⟩

/-- `cmpOpAt` fails at the start of a rendered condition whose field has an
acceptable shape and is followed by a space. -/
theorem cmpOpAt_render_false (f : List Char) (r : List Char)
    (hhead : (match f with
      | a :: b :: _ => !(cmpOpAt [a, b])
      | _ => true) = true) (hne : f ≠ []) :
    cmpOpAt (f ++ ' ' :: r) = false := by
  cases f with
  | nil => exact absurd rfl hne
  | cons a t =>
    cases t with
    | nil => exact cmpOpAt_pair_space a r
    | cons b t' =>
      simp only [Bool.not_eq_true'] at hhead
      rw [List.cons_append, List.cons_append, cmpOpAt_first2]
      exact hhead

end Validators

namespace Validators

/-- No field-extraction match starts at a non-`\w` character. -/
theorem fieldMatchAt_nonword (c : Char) (cs : List Char)
    (h : isWordChar c = false) : fieldMatchAt (c :: cs) = none := by
  unfold fieldMatchAt
  rw [takeWordRun_nonword c cs h]
  simp

/-- No field-extraction match starts at a `\w` token followed by a quote. -/
theorem fieldMatchAt_word_quote (t r : List Char) (ht : t ≠ [])
    (hw : ∀ c ∈ t, isWordChar c = true) :
    fieldMatchAt (t ++ '\'' :: r) = none := by
  unfold fieldMatchAt
  rw [takeWordRun_token t '\'' r hw (by decide)]
  simp [ht, fieldTryRest, takeSpaceRun_nonspace '\'' r (by decide)]

/-- No field-extraction match starts at a `\w` token followed by a space
and a position where no comparison operator occurs. -/
theorem fieldMatchAt_word_space_noncmp (t : List Char) (d : Char)
    (ds : List Char) (ht : t ≠ []) (hw : ∀ c ∈ t, isWordChar c = true)
    (hd : isSpaceChar d = false) (hcmp : cmpOpAt (d :: ds) = false) :
    fieldMatchAt (t ++ ' ' :: d :: ds) = none := by
  unfold fieldMatchAt
  rw [takeWordRun_token t ' ' (d :: ds) hw (by decide)]
  simp [ht, fieldTryRest, takeSpaceRun_single d ds hd, hcmp]

/-- The field-extraction match at the head of a rendered condition: it
captures the field and consumes it, the separating space and the
comparison operator (`consumed - 1 = |field| + 2`). -/
theorem fieldMatchAt_cond (f cmp r : List Char) (hf : f ≠ [])
    (hw : ∀ c ∈ f, isWordChar c = true) (hc : cmp ∈ FilterGrammar.sixAlts) :
    fieldMatchAt (f ++ ' ' :: (cmp ++ r)) = some (f, f.length + 2) := by
  obtain ⟨a, b, rfl, ha, haw, hbw⟩ := sixAlts_shape cmp hc
  have hcm : cmpOpAt ([a, b] ++ r) = true := cmpOpAt_of_six [a, b] hc r
  unfold fieldMatchAt
  rw [takeWordRun_token f ' ' ([a, b] ++ r) hw (by decide)]
  simp only [List.cons_append, List.nil_append] at hcm ⊢
  simp [hf, fieldTryRest, takeSpaceRun_single a (b :: r) ha, hcm]

/-- Dropping a combined length across an append. -/
theorem drop_append_add {α : Type} (f l : List α) (k : ℕ) :
    (f ++ l).drop (f.length + k) = l.drop k := by
  induction f with
  | nil => simp
  | cons a f ih => simpa [Nat.succ_add] using ih

/-- The fuel of `fieldScanAux` is irrelevant once it covers the input
length (each step consumes at least one character). -/
theorem fieldScanAux_fuel (f1 : ℕ) : ∀ (f2 : ℕ) (s : List Char),
    s.length ≤ f1 → s.length ≤ f2 → fieldScanAux f1 s = fieldScanAux f2 s := by
  induction f1 with
  | zero =>
    intro f2 s h1 _
    have : s = [] := List.eq_nil_of_length_eq_zero (by omega)
    subst this
    cases f2 <;> rfl
  | succ f1 ih =>
    intro f2 s h1 h2
    cases s with
    | nil => cases f2 <;> rfl
    | cons c cs =>
      cases f2 with
      | zero => simp at h2
      | succ f2 =>
        show fieldScanAux (f1 + 1) (c :: cs) = fieldScanAux (f2 + 1) (c :: cs)
        unfold fieldScanAux
        cases h : fieldMatchAt (c :: cs) with
        | none =>
          simp only [List.length_cons] at h1 h2
          exact ih f2 cs (by omega) (by omega)
        | some v =>
          obtain ⟨fld, n⟩ := v
          simp only [List.length_cons] at h1 h2
          simp only []
          rw [ih f2 ((c :: cs).drop (n + 1))
            (by simp only [List.length_drop, List.length_cons]; omega)
            (by simp only [List.length_drop, List.length_cons]; omega)]

/-- One-step equation of `fieldScan`. -/
theorem fieldScan_cons (c : Char) (cs : List Char) :
    fieldScan (c :: cs) = match fieldMatchAt (c :: cs) with
      | some (f, n) => f :: fieldScan ((c :: cs).drop (n + 1))
      | none => fieldScan cs := by
  show fieldScanAux (cs.length + 1) (c :: cs) = _
  unfold fieldScanAux
  cases h : fieldMatchAt (c :: cs) with
  | none => rfl
  | some v =>
    obtain ⟨f, n⟩ := v
    simp only []
    congr 1
    exact fieldScanAux_fuel cs.length _ _
      (by simp only [List.length_drop, List.length_cons]; omega) (le_refl _)

/-- The scan passes over a non-`\w` character. -/
theorem fieldScan_cons_nonword (c : Char) (cs : List Char)
    (h : isWordChar c = false) : fieldScan (c :: cs) = fieldScan cs := by
  rw [fieldScan_cons, fieldMatchAt_nonword c cs h]

/-- The scan passes over a quoted-literal body. -/
theorem fieldScan_wordrun_quote (lit r : List Char)
    (hl : ∀ c ∈ lit, isWordChar c = true) :
    fieldScan (lit ++ '\'' :: r) = fieldScan ('\'' :: r) := by
  induction lit with
  | nil => rw [List.nil_append]
  | cons a t ih =>
    have hnone : fieldMatchAt ((a :: t) ++ '\'' :: r) = none :=
      fieldMatchAt_word_quote _ _ (by simp) hl
    rw [List.cons_append] at hnone ⊢
    rw [fieldScan_cons, hnone]
    exact ih (fun x hx => hl x (by simp [hx]))

/-- The scan passes over a connector word followed by a space and a
position with no comparison operator. -/
theorem fieldScan_skip_conn (w : List Char) (d : Char) (ds : List Char)
    (hw : ∀ c ∈ w, isWordChar c = true) (hd : isWordChar d = true)
    (hcmp : cmpOpAt (d :: ds) = false) :
    fieldScan (w ++ ' ' :: d :: ds) = fieldScan (d :: ds) := by
  induction w with
  | nil =>
    rw [List.nil_append]
    exact fieldScan_cons_nonword ' ' _ (by decide)
  | cons a t ih =>
    have hnone : fieldMatchAt ((a :: t) ++ ' ' :: d :: ds) = none :=
      fieldMatchAt_word_space_noncmp (a :: t) d ds (by simp) hw
        (word_not_space d hd) hcmp
    rw [List.cons_append] at hnone ⊢
    rw [fieldScan_cons, hnone]
    exact ih (fun x hx => hw x (by simp [hx]))

end Validators

namespace Validators

/-- The scan of a rendered condition followed by arbitrary text extracts
exactly the condition's field and continues after the condition. -/
theorem fieldScan_cond (c : FilterGrammar.Cond) (T : List Char)
    (hf : c.field ≠ []) (hw : ∀ x ∈ c.field, isWordChar x = true)
    (hc : c.cmp ∈ FilterGrammar.sixAlts)
    (hl : ∀ x ∈ c.lit, FilterGrammar.isAlphaNumChar x = true) :
    fieldScan (FilterGrammar.renderCond c ++ T) = c.field :: fieldScan T := by
  obtain ⟨a2, b2, hcmp2, _, _, _⟩ := sixAlts_shape c.cmp hc
  have hre : FilterGrammar.renderCond c ++ T
      = c.field ++ ' ' :: (c.cmp ++ (' ' :: '\'' :: (c.lit ++ '\'' :: T))) := by
    simp [FilterGrammar.renderCond, List.append_assoc]
  rw [hre]
  obtain ⟨a, f', hfa⟩ : ∃ a f', c.field = a :: f' := by
    cases hx : c.field with
    | nil => exact absurd hx hf
    | cons a f' => exact ⟨a, f', rfl⟩
  have hmatch := fieldMatchAt_cond c.field c.cmp
    (' ' :: '\'' :: (c.lit ++ '\'' :: T)) hf hw hc
  rw [hfa] at hmatch ⊢
  rw [List.cons_append, fieldScan_cons]
  rw [List.cons_append] at hmatch
  rw [hmatch]
  simp only []
  have hdrop : ((a :: f') ++ ' ' :: (c.cmp ++ (' ' :: '\'' :: (c.lit ++ '\'' :: T)))).drop
      ((a :: f').length + 2 + 1)
      = ' ' :: '\'' :: (c.lit ++ '\'' :: T) := by
    rw [hcmp2]
    have := drop_append_add (a :: f')
      (' ' :: a2 :: b2 :: (' ' :: '\'' :: (c.lit ++ '\'' :: T))) 3
    simpa using this
  rw [List.cons_append] at hdrop
  rw [hdrop]
  rw [fieldScan_cons_nonword ' ' _ (by decide),
    fieldScan_cons_nonword '\'' _ (by decide),
    fieldScan_wordrun_quote c.lit T
      (fun x hx => alnum_word x (hl x hx)),
    fieldScan_cons_nonword '\'' _ (by decide)]

/-- Unpacking of the spec-side safety predicate `condSafe`. -/
theorem condSafe_parts (c : FilterGrammar.Cond)
    (h : FilterGrammar.condSafe c = true) :
    c.field ≠ [] ∧ (∀ x ∈ c.field, isWordChar x = true) ∧
      (match c.field with
        | a :: b :: _ => !(cmpOpAt [a, b])
        | _ => true) = true ∧
      c.cmp ∈ FilterGrammar.sixAlts ∧
      c.lit ≠ [] ∧ (∀ x ∈ c.lit, FilterGrammar.isAlphaNumChar x = true) ∧
      (∀ kw ∈ SUSPICIOUS_KEYWORDS, c.field.map Char.toLower ≠ kw) ∧
      (∀ kw ∈ SUSPICIOUS_KEYWORDS, c.lit.map Char.toLower ≠ kw) := by
  unfold FilterGrammar.condSafe FilterGrammar.fieldShapeOK
    FilterGrammar.litSafe at h
  simp only [Bool.and_eq_true, Bool.not_eq_true', List.any_eq_false,
    List.any_eq_true, List.all_eq_true, List.isEmpty_eq_false,
    decide_eq_true_eq, not_exists, not_and, decide_eq_false_iff_not] at h
  obtain ⟨⟨⟨⟨⟨hne, hall⟩, hhead⟩, hkwf⟩, ⟨x, hx, hxe⟩⟩, ⟨hlne, hlall⟩, hkwl⟩ := h
  exact ⟨hne, hall, hhead, hxe ▸ hx, hlne, hlall,
    fun kw hkw heq => hkwf kw hkw heq.symm,
    fun kw hkw heq => hkwl kw hkw heq.symm⟩

/-- The scan of the rendered continuation conditions extracts exactly their
fields. -/
theorem fieldScan_tail (L : List (FilterGrammar.Conn × FilterGrammar.Cond))
    (hL : ∀ p ∈ L, FilterGrammar.condSafe p.2 = true) :
    fieldScan (FilterGrammar.renderTail L) = L.map (fun p => p.2.field) := by
  induction L with
  | nil => rfl
  | cons pc L' ih =>
    obtain ⟨k, c⟩ := pc
    obtain ⟨hne, hall, hhead, hcmp, hlne, hlall, -, -⟩ :=
      condSafe_parts c (hL (k, c) (by simp))
    obtain ⟨a, f', hfa⟩ : ∃ a f', c.field = a :: f' := by
      cases hx : c.field with
      | nil => exact absurd hx hne
      | cons a f' => exact ⟨a, f', rfl⟩
    have hcondshape : FilterGrammar.renderCond c ++ FilterGrammar.renderTail L'
        = c.field ++ ' ' ::
          (c.cmp ++ (' ' :: '\'' :: (c.lit ++ '\'' :: FilterGrammar.renderTail L'))) := by
      simp [FilterGrammar.renderCond, List.append_assoc]
    have hcmpfalse : cmpOpAt (FilterGrammar.renderCond c
        ++ FilterGrammar.renderTail L') = false := by
      rw [hcondshape]
      exact cmpOpAt_render_false c.field _ hhead hne
    have hre : FilterGrammar.renderTail ((k, c) :: L')
        = ' ' :: (FilterGrammar.Conn.render k ++ ' ' ::
            (FilterGrammar.renderCond c ++ FilterGrammar.renderTail L')) := by
      simp [FilterGrammar.renderTail, List.append_assoc]
    have hconsform : FilterGrammar.renderCond c ++ FilterGrammar.renderTail L'
        = a :: (f' ++ ' ' ::
          (c.cmp ++ (' ' :: '\'' :: (c.lit ++ '\'' :: FilterGrammar.renderTail L')))) := by
      rw [hcondshape, hfa, List.cons_append]
    have hkword : ∀ x ∈ FilterGrammar.Conn.render k, isWordChar x = true := by
      cases k <;> decide
    have haword : isWordChar a = true := hall a (by rw [hfa]; simp)
    have hskip : fieldScan (FilterGrammar.Conn.render k ++ ' ' ::
        (FilterGrammar.renderCond c ++ FilterGrammar.renderTail L'))
        = fieldScan (FilterGrammar.renderCond c ++ FilterGrammar.renderTail L') := by
      rw [hconsform]
      exact fieldScan_skip_conn (FilterGrammar.Conn.render k) a _ hkword haword
        (by rw [← hconsform]; exact hcmpfalse)
    rw [hre, fieldScan_cons_nonword ' ' _ (by decide), hskip,
      fieldScan_cond c _ hne hall hcmp hlall, ih (fun p hp => hL p (by simp [hp]))]
    rfl

/-- The field scan of a rendered whitelist-grammar filter extracts exactly
the fields of its conditions, in order. -/
theorem fieldScan_renderFilter (c : FilterGrammar.Cond)
    (rest : List (FilterGrammar.Conn × FilterGrammar.Cond))
    (hc : FilterGrammar.condSafe c = true)
    (hrest : ∀ p ∈ rest, FilterGrammar.condSafe p.2 = true) :
    fieldScan (FilterGrammar.renderFilter c rest).data
      = FilterGrammar.condFields c rest := by
  obtain ⟨hne, hall, hhead, hcmp, hlne, hlall, -, -⟩ := condSafe_parts c hc
  show fieldScan (FilterGrammar.renderCond c ++ FilterGrammar.renderTail rest) = _
  rw [fieldScan_cond c _ hne hall hcmp hlall, fieldScan_tail rest hrest]
  rfl

end Validators

namespace Validators

/-- A character that is not a `\w` character is fixed by lowercasing
(uppercase letters are `\w` characters). -/
theorem nonword_toLower_fix (c : Char) (h : isWordChar c = false) :
    c.toLower = c := by
  apply toLower_of_not_upper
  rintro ⟨h1, h2⟩
  have hAZ : ('A' ≤ c && c ≤ 'Z') = true := by
    rw [Bool.and_eq_true, decide_eq_true_eq, decide_eq_true_eq]
    exact ⟨h1, h2⟩
  unfold isWordChar at h
  rw [hAZ] at h
  simp at h

/-- A word-boundary keyword hit on a `\w` token followed by a non-`\w`
continuation forces the token to be exactly the keyword (lowercased). -/
theorem kwHereWB_true_imp : ∀ (kw t r : List Char),
    (∀ k ∈ kw, isWordChar k = true) →
    (∀ c ∈ t, isWordChar c = true) →
    (r = [] ∨ ∃ d ds, r = d :: ds ∧ isWordChar d = false) →
    kwHereWB false (t ++ r) kw = true → t.map Char.toLower = kw := by
  intro kw
  induction kw with
  | nil =>
    intro t r _ hw _ h
    cases t with
    | nil => rfl
    | cons a t' =>
      exfalso
      have ha : isWordChar a = true := hw a (by simp)
      simp [kwHereWB, dropPrefixCI, ha] at h
  | cons k ks ih =>
    intro t r hkw hw hr h
    cases t with
    | nil =>
      exfalso
      rcases hr with rfl | ⟨d, ds, rfl, hd⟩
      · simp [kwHereWB, dropPrefixCI] at h
      · by_cases hdk : d.toLower = k
        · have hfix : d.toLower = d := nonword_toLower_fix d hd
          rw [hfix] at hdk
          subst hdk
          have : isWordChar d = true := hkw d (by simp)
          rw [this] at hd
          exact Bool.noConfusion hd
        · simp [kwHereWB, dropPrefixCI, hdk] at h
    | cons a t' =>
      by_cases hak : a.toLower = k
      · have h' : kwHereWB false (t' ++ r) ks = true := by
          unfold kwHereWB at h ⊢
          simpa [dropPrefixCI, hak] using h
        have := ih t' r (fun k' hk' => hkw k' (by simp [hk']))
          (fun c hc => hw c (by simp [hc])) hr h'
        simp [this, hak]
      · exfalso
        simp [kwHereWB, dropPrefixCI, hak] at h

/-- Every blacklisted keyword consists of `\w` characters. -/
theorem kws_word : ∀ kw ∈ SUSPICIOUS_KEYWORDS, ∀ k ∈ kw, isWordChar k = true := by
  decide

/-- Interior of a `\w` run: positions with a `\w` predecessor never start a
word-boundary keyword match. -/
theorem hasKeywordAux_true_word (t : List Char) (r : List Char)
    (hw : ∀ c ∈ t, isWordChar c = true) :
    hasKeywordAux true (t ++ r) = hasKeywordAux true r := by
  induction t with
  | nil => rfl
  | cons a t' ih =>
    have ha : isWordChar a = true := hw a (by simp)
    show (SUSPICIOUS_KEYWORDS.any (kwHereWB true (a :: (t' ++ r))) ||
      hasKeywordAux (isWordChar a) (t' ++ r)) = _
    rw [ha]
    have hany : SUSPICIOUS_KEYWORDS.any (kwHereWB true (a :: (t' ++ r))) = false := by
      simp [kwHereWB]
    rw [hany, Bool.false_or]
    exact ih (fun c hc => hw c (by simp [hc]))

/-- The keyword scan passes over a safe `\w` token. -/
theorem hasKeywordAux_token (t r : List Char) (prev : Bool) (ht : t ≠ [])
    (hw : ∀ c ∈ t, isWordChar c = true)
    (hnkw : ∀ kw ∈ SUSPICIOUS_KEYWORDS, t.map Char.toLower ≠ kw)
    (hr : r = [] ∨ ∃ d ds, r = d :: ds ∧ isWordChar d = false) :
    hasKeywordAux prev (t ++ r) = hasKeywordAux true r := by
  obtain ⟨a, t1, rfl⟩ : ∃ a t1, t = a :: t1 := by
    cases hx : t with
    | nil => exact absurd hx ht
    | cons a t1 => exact ⟨a, t1, rfl⟩
  have ha : isWordChar a = true := hw a (by simp)
  show (SUSPICIOUS_KEYWORDS.any (kwHereWB prev ((a :: t1) ++ r)) ||
    hasKeywordAux (isWordChar a) (t1 ++ r)) = _
  rw [ha]
  have hany : SUSPICIOUS_KEYWORDS.any (kwHereWB prev ((a :: t1) ++ r)) = false := by
    rw [List.any_eq_false]
    intro kw hkwm
    cases prev with
    | true => simp [kwHereWB]
    | false =>
      by_contra hx
      exact hnkw kw hkwm
        (kwHereWB_true_imp kw (a :: t1) r (kws_word kw hkwm) hw hr hx)
  rw [hany, Bool.false_or]
  exact hasKeywordAux_true_word t1 r (fun c hc => hw c (by simp [hc]))

/-- The keyword scan passes over a space or a quote (no keyword starts with
either). -/
theorem hasKeywordAux_nonword_cons (prev : Bool) (c : Char) (cs : List Char)
    (hc : c = ' ' ∨ c = '\'') :
    hasKeywordAux prev (c :: cs) = hasKeywordAux false cs := by
  have h1 : Char.toLower ' ' = ' ' := by decide
  have h2 : Char.toLower '\'' = '\'' := by decide
  rcases hc with rfl | rfl
  · show (SUSPICIOUS_KEYWORDS.any (kwHereWB prev (' ' :: cs)) ||
      hasKeywordAux (isWordChar ' ') cs) = _
    rw [show isWordChar ' ' = false by decide]
    have hany : SUSPICIOUS_KEYWORDS.any (kwHereWB prev (' ' :: cs)) = false := by
      simp [SUSPICIOUS_KEYWORDS, kwHereWB, dropPrefixCI, h1]
    rw [hany, Bool.false_or]
  · show (SUSPICIOUS_KEYWORDS.any (kwHereWB prev ('\'' :: cs)) ||
      hasKeywordAux (isWordChar '\'') cs) = _
    rw [show isWordChar '\'' = false by decide]
    have hany : SUSPICIOUS_KEYWORDS.any (kwHereWB prev ('\'' :: cs)) = false := by
      simp [SUSPICIOUS_KEYWORDS, kwHereWB, dropPrefixCI, h2]
    rw [hany, Bool.false_or]

end Validators

namespace Validators

/-- Facts about the six comparison alternatives needed by the keyword
screen: nonempty, all `\w` characters, and not a blacklisted keyword. -/
theorem sixAlts_kw_facts : ∀ m ∈ FilterGrammar.sixAlts, m ≠ [] ∧
    (∀ x ∈ m, isWordChar x = true) ∧
    (∀ kw ∈ SUSPICIOUS_KEYWORDS, m.map Char.toLower ≠ kw) := by
  decide

/-- The keyword scan passes over one rendered safe condition. -/
theorem hasKeywordAux_skip_renderCond (c : FilterGrammar.Cond) (T : List Char)
    (hc : FilterGrammar.condSafe c = true) :
    hasKeywordAux false (FilterGrammar.renderCond c ++ T)
      = hasKeywordAux false T := by
  obtain ⟨hne, hall, -, hcmp, hlne, hlall, hkwf, hkwl⟩ := condSafe_parts c hc
  obtain ⟨h6ne, h6w, h6kw⟩ := sixAlts_kw_facts c.cmp hcmp
  have hshape : FilterGrammar.renderCond c ++ T
      = c.field ++ (' ' :: (c.cmp ++ (' ' :: '\'' ::
          (c.lit ++ ('\'' :: T))))) := by
    simp [FilterGrammar.renderCond, List.append_assoc]
  rw [hshape,
    hasKeywordAux_token c.field _ false hne hall hkwf
      (Or.inr ⟨' ', _, rfl, by decide⟩),
    hasKeywordAux_nonword_cons true ' ' _ (Or.inl rfl),
    hasKeywordAux_token c.cmp _ false h6ne h6w h6kw
      (Or.inr ⟨' ', _, rfl, by decide⟩),
    hasKeywordAux_nonword_cons true ' ' _ (Or.inl rfl),
    hasKeywordAux_nonword_cons false '\'' _ (Or.inr rfl),
    hasKeywordAux_token c.lit _ false hlne
      (fun x hx => alnum_word x (hlall x hx)) hkwl
      (Or.inr ⟨'\'', T, rfl, by decide⟩),
    hasKeywordAux_nonword_cons true '\'' _ (Or.inr rfl)]

/-- The keyword scan finds nothing in the rendered continuation
conditions of a safe grammar term. -/
theorem hasKeywordAux_renderTail
    (L : List (FilterGrammar.Conn × FilterGrammar.Cond))
    (hL : ∀ p ∈ L, FilterGrammar.condSafe p.2 = true) :
    hasKeywordAux false (FilterGrammar.renderTail L) = false := by
  induction L with
  | nil => rfl
  | cons pc L' ih =>
    obtain ⟨k, c⟩ := pc
    have hkfacts : FilterGrammar.Conn.render k ≠ [] ∧
        (∀ x ∈ FilterGrammar.Conn.render k, isWordChar x = true) ∧
        (∀ kw ∈ SUSPICIOUS_KEYWORDS,
          (FilterGrammar.Conn.render k).map Char.toLower ≠ kw) := by
      cases k
      · exact (by decide)
      · exact (by decide)
    have hre : FilterGrammar.renderTail ((k, c) :: L')
        = ' ' :: (FilterGrammar.Conn.render k ++ (' ' ::
            (FilterGrammar.renderCond c ++ FilterGrammar.renderTail L'))) := by
      simp [FilterGrammar.renderTail, List.append_assoc]
    rw [hre, hasKeywordAux_nonword_cons false ' ' _ (Or.inl rfl),
      hasKeywordAux_token (FilterGrammar.Conn.render k) _ false
        hkfacts.1 hkfacts.2.1 hkfacts.2.2 (Or.inr ⟨' ', _, rfl, by decide⟩),
      hasKeywordAux_nonword_cons true ' ' _ (Or.inl rfl),
      hasKeywordAux_skip_renderCond c _ (hL (k, c) (by simp)),
      ih (fun p hp => hL p (by simp [hp]))]

/-- The blacklisted-keyword screen accepts every rendered safe grammar
term. -/
theorem hasSuspiciousKeyword_render (c : FilterGrammar.Cond)
    (rest : List (FilterGrammar.Conn × FilterGrammar.Cond))
    (hc : FilterGrammar.condSafe c = true)
    (hrest : ∀ p ∈ rest, FilterGrammar.condSafe p.2 = true) :
    hasSuspiciousKeyword (FilterGrammar.renderFilter c rest).data = false := by
  show hasKeywordAux false
    (FilterGrammar.renderCond c ++ FilterGrammar.renderTail rest) = false
  rw [hasKeywordAux_skip_renderCond c _ hc,
    hasKeywordAux_renderTail rest hrest]

end Validators

namespace Validators

/-- The remainder of `takeWordRun` consists of characters of the input. -/
theorem takeWordRun_snd_subset (r : List Char) :
    ∀ c ∈ (takeWordRun r).2, c ∈ r := by
  induction r with
  | nil => intro c hc; simp [takeWordRun] at hc
  | cons a as ih =>
    intro c hc
    by_cases ha : isWordChar a = true
    · simp only [takeWordRun, ha, if_true] at hc
      exact List.mem_cons_of_mem a (ih c hc)
    · rw [Bool.not_eq_true] at ha
      simp only [takeWordRun, ha, Bool.false_eq_true, if_false] at hc
      exact hc

/-- The remainder of `takeSpaceRun` consists of characters of the input. -/
theorem takeSpaceRun_snd_subset (r : List Char) :
    ∀ c ∈ (takeSpaceRun r).2, c ∈ r := by
  induction r with
  | nil => intro c hc; simp [takeSpaceRun] at hc
  | cons a as ih =>
    intro c hc
    by_cases ha : isSpaceChar a = true
    · simp only [takeSpaceRun, ha, if_true] at hc
      exact List.mem_cons_of_mem a (ih c hc)
    · rw [Bool.not_eq_true] at ha
      simp only [takeSpaceRun, ha, Bool.false_eq_true, if_false] at hc
      exact hc

/-- A list whose default-padded head is an equals sign contains one. -/
theorem headD_eq_mem (xs : List Char) (h : xs.headD ' ' = '=') : '=' ∈ xs := by
  cases xs with
  | nil => exact absurd h (by decide)
  | cons d ds =>
    rw [List.headD_cons] at h
    rw [← h]
    exact List.mem_cons_self _ _

/-- An event-handler match requires an equals sign in the input. -/
theorem eventHandlerAt_eq_mem (s : List Char)
    (h : eventHandlerAt s = true) : '=' ∈ s := by
  rcases s with _ | ⟨c1, _ | ⟨c2, r⟩⟩
  · simp [eventHandlerAt] at h
  · simp [eventHandlerAt] at h
  · unfold eventHandlerAt at h
    simp only [Bool.and_eq_true, decide_eq_true_eq] at h
    obtain ⟨-, -, hm⟩ := h
    have hmem : '=' ∈ (takeSpaceRun (takeWordRun r).2).2 :=
      headD_eq_mem _ hm
    have h1 : '=' ∈ (takeWordRun r).2 :=
      takeSpaceRun_snd_subset _ '=' hmem
    have h2 : '=' ∈ r := takeWordRun_snd_subset r '=' h1
    exact List.mem_cons_of_mem c1 (List.mem_cons_of_mem c2 h2)

end Validators

namespace Validators

/-- A case-insensitive prefix match matches every pattern character against
some input character. -/
theorem dropPrefixCI_some_mem : ∀ (pat s r : List Char),
    dropPrefixCI pat s = some r → ∀ k ∈ pat, ∃ c ∈ s, c.toLower = k := by
  intro pat
  induction pat with
  | nil => intro s r _ k hk; simp at hk
  | cons k0 ks ih =>
    intro s r h k hk
    cases s with
    | nil => simp [dropPrefixCI] at h
    | cons c cs =>
      by_cases hck : c.toLower = k0
      · rcases List.mem_cons.mp hk with rfl | hk'
        · exact ⟨c, by simp, hck⟩
        · rw [show dropPrefixCI (k0 :: ks) (c :: cs)
              = dropPrefixCI ks cs from by simp [dropPrefixCI, hck]] at h
          obtain ⟨c', hc', hc'k⟩ := ih cs r h k hk'
          exact ⟨c', by simp [hc'], hc'k⟩
      · simp [dropPrefixCI, hck] at h

/-- A case-insensitive substring hit matches every pattern character
against some input character. -/
theorem hasSubstrCI_mem : ∀ (pat t : List Char), hasSubstrCI pat t = true →
    ∀ k ∈ pat, ∃ c ∈ t, c.toLower = k := by
  intro pat t
  induction t with
  | nil =>
    intro h k hk
    cases pat with
    | nil => simp at hk
    | cons a as => simp [hasSubstrCI] at h
  | cons c cs ih =>
    intro h k hk
    unfold hasSubstrCI at h
    rw [Bool.or_eq_true] at h
    rcases h with h | h
    · rw [Option.isSome_iff_exists] at h
      obtain ⟨r, hr⟩ := h
      exact dropPrefixCI_some_mem pat (c :: cs) r hr k hk
    · obtain ⟨c', hc', hc'k⟩ := ih h k hk
      exact ⟨c', by simp [hc'], hc'k⟩

/-- A `\w` character, a space or a quote is an acceptable rendered
character. -/
theorem renderCharOK_of_word (x : Char) (h : isWordChar x = true) :
    FilterGrammar.renderCharOK x = true := by
  simp [FilterGrammar.renderCharOK, h]

/-- Every character of a rendered safe condition is a `\w` character, a
space or a quote. -/
theorem renderCond_charOK (c : FilterGrammar.Cond)
    (hc : FilterGrammar.condSafe c = true) :
    ∀ x ∈ FilterGrammar.renderCond c, FilterGrammar.renderCharOK x = true := by
  obtain ⟨-, hall, -, hcmp, -, hlall, -, -⟩ := condSafe_parts c hc
  obtain ⟨-, h6w, -⟩ := sixAlts_kw_facts c.cmp hcmp
  intro x hx
  have hcases : x ∈ c.field ∨ x ∈ c.cmp ∨ x ∈ c.lit ∨ x = ' ' ∨ x = '\'' := by
    simp only [FilterGrammar.renderCond, List.append_assoc, List.mem_append,
      List.mem_cons, List.not_mem_nil, or_false] at hx
    tauto
  rcases hcases with hf | hcm | hl | rfl | rfl
  · exact renderCharOK_of_word x (hall x hf)
  · exact renderCharOK_of_word x (h6w x hcm)
  · exact renderCharOK_of_word x (alnum_word x (hlall x hl))
  · decide
  · decide

/-- Every character of the rendered continuation conditions is a `\w`
character, a space or a quote. -/
theorem renderTail_charOK (L : List (FilterGrammar.Conn × FilterGrammar.Cond))
    (hL : ∀ p ∈ L, FilterGrammar.condSafe p.2 = true) :
    ∀ x ∈ FilterGrammar.renderTail L, FilterGrammar.renderCharOK x = true := by
  induction L with
  | nil => intro x hx; simp [FilterGrammar.renderTail] at hx
  | cons pc L' ih =>
    obtain ⟨k, c⟩ := pc
    intro x hx
    have hconn : ∀ y ∈ FilterGrammar.Conn.render k,
        FilterGrammar.renderCharOK y = true := by
      cases k
      · exact (by decide)
      · exact (by decide)
    have hcases : x = ' ' ∨ x ∈ FilterGrammar.Conn.render k ∨
        x ∈ FilterGrammar.renderCond c ∨ x ∈ FilterGrammar.renderTail L' := by
      simp only [FilterGrammar.renderTail, List.append_assoc, List.mem_append,
        List.mem_cons, List.not_mem_nil, or_false] at hx
      tauto
    rcases hcases with rfl | hk | hc | hl
    · decide
    · exact hconn x hk
    · exact renderCond_charOK c (hL (k, c) (by simp)) x hc
    · exact ih (fun p hp => hL p (by simp [hp])) x hl

/-- Every character of a rendered safe grammar filter is a `\w` character,
a space or a quote. -/
theorem renderFilter_charOK (c : FilterGrammar.Cond)
    (rest : List (FilterGrammar.Conn × FilterGrammar.Cond))
    (hc : FilterGrammar.condSafe c = true)
    (hrest : ∀ p ∈ rest, FilterGrammar.condSafe p.2 = true) :
    ∀ x ∈ (FilterGrammar.renderFilter c rest).data,
      FilterGrammar.renderCharOK x = true := by
  intro x hx
  rcases List.mem_append.mp hx with h | h
  · exact renderCond_charOK c hc x h
  · exact renderTail_charOK rest hrest x h

end Validators

namespace Validators

/-- No acceptable rendered character is in the suspicious character
class. -/
theorem renderOK_not_suspicious (x : Char)
    (h : FilterGrammar.renderCharOK x = true) : suspiciousChar x = false := by
  cases hs : suspiciousChar x with
  | false => rfl
  | true =>
    exfalso
    unfold suspiciousChar at hs
    simp only [Bool.or_eq_true, decide_eq_true_eq] at hs
    rcases hs with (((((((rfl | rfl) | rfl) | rfl) | rfl) | rfl) | rfl) | rfl) <;>
      exact absurd h (by decide)

/-- The suspicious-character screen accepts a string of acceptable rendered
characters. -/
theorem anySuspicious_none (t : List Char)
    (h : ∀ x ∈ t, FilterGrammar.renderCharOK x = true) :
    t.any suspiciousChar = false := by
  rw [List.any_eq_false]
  intro x hx
  rw [renderOK_not_suspicious x (h x hx)]
  exact Bool.false_ne_true

/-- The `<script` screen accepts a string of acceptable rendered
characters: no such character lowercases to `<`. -/
theorem hasSubstrCI_script_none (t : List Char)
    (h : ∀ x ∈ t, FilterGrammar.renderCharOK x = true) :
    hasSubstrCI ("<script").data t = false := by
  cases hs : hasSubstrCI ("<script").data t with
  | false => rfl
  | true =>
    exfalso
    obtain ⟨c, hc, hck⟩ := hasSubstrCI_mem _ t hs '<' (by decide)
    have hceq : c = '<' := toLower_eq_nonletter (by decide) hck
    subst hceq
    exact absurd (h '<' hc) (by decide)

/-- The `javascript:` screen accepts a string of acceptable rendered
characters: no such character lowercases to `:`. -/
theorem hasSubstrCI_js_none (t : List Char)
    (h : ∀ x ∈ t, FilterGrammar.renderCharOK x = true) :
    hasSubstrCI ("javascript:").data t = false := by
  cases hs : hasSubstrCI ("javascript:").data t with
  | false => rfl
  | true =>
    exfalso
    obtain ⟨c, hc, hck⟩ := hasSubstrCI_mem _ t hs ':' (by decide)
    have hceq : c = ':' := toLower_eq_nonletter (by decide) hck
    subst hceq
    exact absurd (h ':' hc) (by decide)

/-- The event-handler screen accepts a string of acceptable rendered
characters: no such character is an equals sign. -/
theorem hasEventHandler_none (t : List Char)
    (h : ∀ x ∈ t, FilterGrammar.renderCharOK x = true) :
    hasEventHandler t = false := by
  induction t with
  | nil => rfl
  | cons c cs ih =>
    unfold hasEventHandler
    have h1 : eventHandlerAt (c :: cs) = false := by
      cases he : eventHandlerAt (c :: cs) with
      | false => rfl
      | true =>
        exfalso
        have := eventHandlerAt_eq_mem _ he
        exact absurd (h '=' this) (by decide)
    rw [h1, Bool.false_or]
    exact ih (fun x hx => h x (by simp [hx]))

/-- The combined suspicious-pattern screen accepts every rendered safe
grammar filter. -/
theorem filterSuspicious_render_false (c : FilterGrammar.Cond)
    (rest : List (FilterGrammar.Conn × FilterGrammar.Cond))
    (hc : FilterGrammar.condSafe c = true)
    (hrest : ∀ p ∈ rest, FilterGrammar.condSafe p.2 = true) :
    filterSuspicious (FilterGrammar.renderFilter c rest).data = false := by
  have hok := renderFilter_charOK c rest hc hrest
  unfold filterSuspicious
  rw [anySuspicious_none _ hok, hasSuspiciousKeyword_render c rest hc hrest,
    hasSubstrCI_script_none _ hok, hasSubstrCI_js_none _ hok,
    hasEventHandler_none _ hok]
  rfl

end Validators

namespace Validators

/-- `trim` is the identity on a string with non-whitespace first and last
characters. -/
theorem jsTrim_id2 (a b : Char) (mid : List Char)
    (ha : isSpaceChar a = false) (hb : isSpaceChar b = false) :
    jsTrim (a :: (mid ++ [b])) = a :: (mid ++ [b]) := by
  unfold jsTrim
  simp only [List.dropWhile_cons, ha, Bool.false_eq_true, if_false]
  have hrev : (a :: (mid ++ [b])).reverse = b :: (mid.reverse ++ [a]) := by
    simp
  rw [hrev]
  simp only [List.dropWhile_cons, hb, Bool.false_eq_true, if_false]
  rw [← hrev, List.reverse_reverse]

/-- The rendered continuation conditions are empty or end with a quote. -/
theorem renderTail_decomp (L : List (FilterGrammar.Conn × FilterGrammar.Cond)) :
    FilterGrammar.renderTail L = [] ∨
      ∃ zs, FilterGrammar.renderTail L = zs ++ ['\''] := by
  induction L with
  | nil => exact Or.inl rfl
  | cons pc L' ih =>
    obtain ⟨k, c⟩ := pc
    rcases ih with hnil | ⟨zs, hzs⟩
    · right
      refine ⟨' ' :: (FilterGrammar.Conn.render k ++ (' ' :: (c.field ++
        (' ' :: (c.cmp ++ (' ' :: '\'' :: c.lit)))))), ?_⟩
      simp only [FilterGrammar.renderTail]
      rw [hnil]
      simp [FilterGrammar.renderCond, List.append_assoc]
    · right
      refine ⟨' ' :: (FilterGrammar.Conn.render k ++ (' ' ::
        (FilterGrammar.renderCond c ++ zs))), ?_⟩
      simp only [FilterGrammar.renderTail]
      rw [hzs]
      simp [List.append_assoc]

/-- A rendered safe grammar filter starts with a `\w` character and ends
with a quote. -/
theorem render_decomp (c : FilterGrammar.Cond)
    (rest : List (FilterGrammar.Conn × FilterGrammar.Cond))
    (hc : FilterGrammar.condSafe c = true) :
    ∃ a mid, (FilterGrammar.renderFilter c rest).data
        = a :: (mid ++ ['\'']) ∧ isWordChar a = true := by
  obtain ⟨hne, hall, -, -, -, -, -, -⟩ := condSafe_parts c hc
  obtain ⟨a, f', hfa⟩ : ∃ a f', c.field = a :: f' := by
    cases hx : c.field with
    | nil => exact absurd hx hne
    | cons a f' => exact ⟨a, f', rfl⟩
  have haw : isWordChar a = true := hall a (by rw [hfa]; simp)
  rcases renderTail_decomp rest with hnil | ⟨zs, hzs⟩
  · refine ⟨a, f' ++ (' ' :: (c.cmp ++ (' ' :: '\'' :: c.lit))), ?_, haw⟩
    show FilterGrammar.renderCond c ++ FilterGrammar.renderTail rest = _
    rw [hnil]
    simp [FilterGrammar.renderCond, hfa, List.append_assoc]
  · refine ⟨a, f' ++ (' ' :: (c.cmp ++ (' ' :: '\'' ::
      (c.lit ++ ('\'' :: zs))))), ?_, haw⟩
    show FilterGrammar.renderCond c ++ FilterGrammar.renderTail rest = _
    rw [hzs]
    simp [FilterGrammar.renderCond, hfa, List.append_assoc]

/-- `trim` is the identity on a rendered safe grammar filter. -/
theorem jsTrim_render (c : FilterGrammar.Cond)
    (rest : List (FilterGrammar.Conn × FilterGrammar.Cond))
    (hc : FilterGrammar.condSafe c = true) :
    jsTrim (FilterGrammar.renderFilter c rest).data
      = (FilterGrammar.renderFilter c rest).data := by
  obtain ⟨a, mid, heq, haw⟩ := render_decomp c rest hc
  rw [heq]
  exact jsTrim_id2 a '\'' mid (word_not_space a haw) (by decide)

/-- A successful alternative attempt returns a member of the alternative
list. -/
theorem altTry_mem : ∀ (r : List Char) (alts : List (List Char))
    (alt : List Char) (k : ℕ),
    altTry r alts = some (alt, k) → alt ∈ alts := by
  intro r alts
  induction alts with
  | nil => intro alt k h; simp [altTry] at h
  | cons a as ih =>
    intro alt k h
    unfold altTry at h
    rcases hda : dropPrefixCI a r with _ | r2
    · rw [hda] at h
      exact List.mem_cons_of_mem a (ih alt k h)
    · rw [hda] at h
      simp only [] at h
      by_cases hsp : (takeSpaceRun r2).1 = []
      · rw [if_pos hsp] at h
        exact List.mem_cons_of_mem a (ih alt k h)
      · rw [if_neg hsp] at h
        injection h with h1
        injection h1 with h2 h3
        rw [← h2]
        exact List.mem_cons_self a as

/-- A successful operator-regex match captures one of the nine
alternatives. -/
theorem opMatchAt_mem (s : List Char) (alt : List Char) (n : ℕ)
    (h : opMatchAt s = some (alt, n)) : alt ∈ opAlts := by
  unfold opMatchAt at h
  simp only [] at h
  by_cases hsp : (takeSpaceRun s).1 = []
  · rw [if_pos hsp] at h
    exact absurd h (by simp)
  · rw [if_neg hsp] at h
    rcases hat : altTry (takeSpaceRun s).2 opAlts with _ | ⟨a, k⟩
    · rw [hat] at h
      exact absurd h (by simp)
    · rw [hat] at h
      simp only [] at h
      injection h with h1
      injection h1 with h2 h3
      rw [← h2]
      exact altTry_mem _ _ a k hat

/-- Every operator the scan extracts is one of the nine alternatives. -/
theorem opScanAux_subset : ∀ (fuel : ℕ) (s : List Char),
    ∀ o ∈ opScanAux fuel s, o ∈ opAlts := by
  intro fuel
  induction fuel with
  | zero => intro s o ho; simp [opScanAux] at ho
  | succ f ih =>
    intro s o ho
    cases s with
    | nil => simp [opScanAux] at ho
    | cons c cs =>
      unfold opScanAux at ho
      rcases hm : opMatchAt (c :: cs) with _ | ⟨a, n⟩
      · rw [hm] at ho
        exact ih cs o ho
      · rw [hm] at ho
        simp only [] at ho
        rcases List.mem_cons.mp ho with rfl | htail
        · exact opMatchAt_mem _ o n hm
        · exact ih _ o htail

/-- The operator-whitelist pass never finds an offender: every extracted
operator is one of the nine alternatives, and all nine are allowed. -/
theorem opScan_find_none (s : List Char) :
    (opScan s).find? (fun o => !(ALLOWED_OPERATORS.contains (String.mk o)))
      = none := by
  rw [List.find?_eq_none]
  intro o ho
  have hmem : o ∈ opAlts := opScanAux_subset s.length s o ho
  unfold opAlts at hmem
  simp only [List.mem_cons, List.not_mem_nil, or_false] at hmem
  rcases hmem with rfl | rfl | rfl | rfl | rfl | rfl | rfl | rfl | rfl <;>
    decide

end Validators

namespace Validators

/-- Full evaluation of `validateODataFilter` on a rendered safe grammar
filter: every screen before the field whitelist passes, the extracted
fields are exactly the grammar term's fields, and the operator whitelist
never fires, so the result is decided by the field-whitelist pass alone. -/
theorem validateODataFilter_render (c : FilterGrammar.Cond)
    (rest : List (FilterGrammar.Conn × FilterGrammar.Cond))
    (hc : FilterGrammar.condSafe c = true)
    (hrest : ∀ p ∈ rest, FilterGrammar.condSafe p.2 = true) :
    validateODataFilter (FilterGrammar.renderFilter c rest)
      = match (FilterGrammar.condFields c rest).find?
          (fun f => !(ALLOWED_FILTER_FIELDS.contains (String.mk f))) with
        | some f => .error (.validation (invalidFieldMessage (String.mk f)))
        | none => .ok () := by
  have hdata_ne : (FilterGrammar.renderFilter c rest).data ≠ [] := by
    obtain ⟨a, mid, heq, -⟩ := render_decomp c rest hc
    rw [heq]
    simp
  have htrim := jsTrim_render c rest hc
  have hnull : ((FilterGrammar.renderFilter c rest).data.contains
      (Char.ofNat 0)) = false := by
    cases hx : ((FilterGrammar.renderFilter c rest).data.contains
        (Char.ofNat 0)) with
    | false => rfl
    | true =>
      exfalso
      have hmem : (Char.ofNat 0) ∈ (FilterGrammar.renderFilter c rest).data := by
        simpa using hx
      exact absurd (renderFilter_charOK c rest hc hrest _ hmem) (by decide)
  unfold validateODataFilter
  rw [if_neg (by push_neg; exact ⟨hdata_ne, by rw [htrim]; exact hdata_ne⟩)]
  simp only []
  rw [htrim, if_neg (by rw [hnull]; exact Bool.false_ne_true),
    if_neg (by rw [filterSuspicious_render_false c rest hc hrest]
               exact Bool.false_ne_true),
    fieldScan_renderFilter c rest hc hrest]
  cases hfind : (FilterGrammar.condFields c rest).find?
      (fun f => !(ALLOWED_FILTER_FIELDS.contains (String.mk f))) with
  | some f => rfl
  | none =>
    simp only []
    rw [opScan_find_none]

end Validators

/-- C3 (amended).  For every non-empty filter built by the whitelist
grammar (comparison conditions `field op 'literal'` joined by `and` / `or`)
whose conditions are scanner-safe (`condSafe`): if every field is on the
field whitelist the validator accepts, and if some field is off the
whitelist the validator rejects with a `ValidationError` naming the first
offending field and the allowed set (`invalidFieldMessage`).  The original
claim is wrong in both directions: a filter built exclusively from
whitelisted tokens can still be rejected by the blacklisted-keyword screen
(see the counterexample, `title eq 'delete'`), and a filter with a
non-whitelisted *operator* is never rejected by the operator pass, because
the operator-extraction regex can only capture the nine allowed
alternatives (`opScan_find_none`). -/
theorem claim_C3_whitelist_filter (c : FilterGrammar.Cond)
    (rest : List (FilterGrammar.Conn × FilterGrammar.Cond))
    (hc : FilterGrammar.condSafe c = true)
    (hrest : ∀ p ∈ rest, FilterGrammar.condSafe p.2 = true) :
    ((FilterGrammar.condFields c rest).all
        (fun f => Validators.ALLOWED_FILTER_FIELDS.contains (String.mk f))
          = true →
      Validators.validateODataFilter (FilterGrammar.renderFilter c rest)
        = .ok ()) ∧
    (∀ f, (FilterGrammar.condFields c rest).find?
        (fun f => !(Validators.ALLOWED_FILTER_FIELDS.contains (String.mk f)))
          = some f →
      Validators.validateODataFilter (FilterGrammar.renderFilter c rest)
        = .error (.validation
            (Validators.invalidFieldMessage (String.mk f)))) := by
  have heval := Validators.validateODataFilter_render c rest hc hrest
  constructor
  · intro hall
    rw [heval]
    have hnone : (FilterGrammar.condFields c rest).find?
        (fun f => !(Validators.ALLOWED_FILTER_FIELDS.contains (String.mk f)))
          = none := by
      rw [List.find?_eq_none]
      intro x hx
      have hx2 := List.all_eq_true.mp hall x hx
      simp only [] at hx2 ⊢
      rw [hx2]
      simp
    rw [hnone]
  · intro f hf
    rw [heval, hf]

/-- C3, counterexample to the original positive direction: the filter
`title eq 'delete'` is built exclusively from a whitelisted field
(`title`), a whitelisted operator (`eq`) and a quoted literal value, yet
the validator rejects it — the blacklisted-keyword screen fires on the
literal `delete` before either whitelist is consulted. -/
theorem claim_C3_counterexample :
    FilterGrammar.specFilterOK
      ⟨("title").data, ("eq").data, ("delete").data⟩ [] = true ∧
    (FilterGrammar.renderFilter
      ⟨("title").data, ("eq").data, ("delete").data⟩ [])
      = "title eq 'delete'" ∧
    Validators.validateODataFilter
      (FilterGrammar.renderFilter
        ⟨("title").data, ("eq").data, ("delete").data⟩ [])
      = .error (.validation
          "Filter contains invalid characters or patterns") := by
  refine ⟨by decide, by decide, ?_⟩
  decide

/-- Witness for C3 at the specification's own examples: the rendered
filter `status eq 'completed' and importance eq 'high'` is accepted, and
the rendered filter `userId eq '1'` is rejected naming `userId` and the
allowed fields. -/
theorem claim_C3_whitelist_filter_witness :
    Validators.validateODataFilter (FilterGrammar.renderFilter
      ⟨("status").data, ("eq").data, ("completed").data⟩
      [(FilterGrammar.Conn.and,
        ⟨("importance").data, ("eq").data, ("high").data⟩)])
      = .ok () ∧
    Validators.validateODataFilter (FilterGrammar.renderFilter
      ⟨("userId").data, ("eq").data, ("1").data⟩ [])
      = .error (.validation
          (Validators.invalidFieldMessage (String.mk ("userId").data))) := by
  constructor
  · exact (claim_C3_whitelist_filter
      ⟨("status").data, ("eq").data, ("completed").data⟩
      [(FilterGrammar.Conn.and,
        ⟨("importance").data, ("eq").data, ("high").data⟩)]
      (by decide) (by decide)).1 (by decide)
  · exact (claim_C3_whitelist_filter
      ⟨("userId").data, ("eq").data, ("1").data⟩ []
      (by decide) (by decide)).2 ("userId").data (by decide)
